import Mathlib

/-! evm-tx-signer

A shallow embedding of `signer.go` (package `main`): the command reads a
private key, a chain id, a signer name and one hex encoded unsigned
transaction, and prints either a JSON result holding the signed transaction or
a failure.

The functions of `github.com/ethereum/go-ethereum` that `main` calls are not
part of the repository.  `main` is embedded over an arbitrary implementation of
them (`GoEthereum`), so every statement about `main` alone holds for whatever
that library does.  `encoding/hex` and the `encoding/json` rendering of the
`result` struct are embedded concretely.
-/

namespace EvmTxSigner

/-! ## Go standard library: `encoding/hex` -/

/-- Errors of `encoding/hex`: `InvalidByteError b` and `ErrLength`. -/
inductive HexError where
  | InvalidByteError (b : Nat)
  | ErrLength
deriving DecidableEq

/-- Table `hextable = "0123456789abcdef"` of `encoding/hex`, indexed by a nibble. -/
def hexDigit (n : Nat) : Char :=
  if n < 10 then Char.ofNat (48 + n) else Char.ofNat (87 + n)

/-- Upper case hexadecimal digit, as printed by the `%X` verb of `fmt`. -/
def upperHexDigit (n : Nat) : Char :=
  if n < 10 then Char.ofNat (48 + n) else Char.ofNat (55 + n)

/-- Go's `hex.EncodeToString`: two lower case digits per byte. -/
def EncodeToString (src : List Nat) : String :=
  String.mk (src.flatMap fun v => [hexDigit (v / 16 % 16), hexDigit (v % 16)])

/-- Table `reverseHexTable` of `encoding/hex`: the value of a hexadecimal digit. -/
def fromHexChar (c : Char) : Option Nat :=
  let n := c.toNat
  if 48 ≤ n ∧ n ≤ 57 then some (n - 48)
  else if 97 ≤ n ∧ n ≤ 102 then some (n - 87)
  else if 65 ≤ n ∧ n ≤ 70 then some (n - 55)
  else none

/-- First byte of the UTF-8 encoding of a character: a Go string is a byte
sequence, and `hex.Decode` reports the first byte that is not a digit. -/
def firstByte (c : Char) : Nat :=
  let n := c.toNat
  if n < 128 then n
  else if n < 2048 then 192 + n / 64
  else if n < 65536 then 224 + n / 4096
  else 240 + n / 262144

/-- Loop of Go's `hex.Decode` over the characters of the source string: digits
are consumed in pairs, the first byte that is not a digit is reported, and a
trailing single digit is `ErrLength`. -/
def decodePairs : List Char → Except HexError (List Nat)
  | [] => .ok []
  | [p] =>
    match fromHexChar p with
    | none => .error (.InvalidByteError (firstByte p))
    | some _ => .error .ErrLength
  | p :: q :: rest =>
    match fromHexChar p with
    | none => .error (.InvalidByteError (firstByte p))
    | some a =>
      match fromHexChar q with
      | none => .error (.InvalidByteError (firstByte q))
      | some b =>
        match decodePairs rest with
        | .error e => .error e
        | .ok bytes => .ok ((a * 16 + b) :: bytes)

/-- Go's `hex.DecodeString`. -/
def DecodeString (s : String) : Except HexError (List Nat) :=
  decodePairs s.toList

/-- Go's `strconv.IsPrint` on the Latin-1 range, which is all a byte can reach. -/
def isPrintLatin1 (r : Nat) : Bool :=
  (32 ≤ r && r ≤ 126) || (161 ≤ r && r ≤ 255 && r != 173)

/-- The `%#U` verb of `fmt` for a byte: `U+` and four upper case digits, then
the quoted character when it is printable. -/
def formatSharpU (b : Nat) : String :=
  String.mk ([Char.ofNat 85, Char.ofNat 43, upperHexDigit (b / 4096 % 16), upperHexDigit (b / 256 % 16),
      upperHexDigit (b / 16 % 16), upperHexDigit (b % 16)]
    ++ (if isPrintLatin1 b then [Char.ofNat 32, Char.ofNat 39, Char.ofNat b, Char.ofNat 39] else []))

/-- The `Error()` text of an `encoding/hex` error. -/
def HexError.Error : HexError → String
  | .InvalidByteError b => "encoding/hex: invalid byte: " ++ formatSharpU b
  | .ErrLength => "encoding/hex: odd length hex string"

/-! ## The program's own declarations -/

/-- Constant `usageString` of `signer.go`. -/
def usageString : String :=
  "\nevm-tx-signer [options] <unsigned_tx_string>\n\n\tevm-tx-signer signs an usinged transaction using supplied private key for EVM based blockchains like Ethereum and Polygon \n\nOptions:\n\t--privatekey\t\tHex encoded private key (required)\n\t--chainid\t\t\tThe chain ID to use for signing transaction (required)\n    --signer\t\t\tThe signer to use [london|legacy] (london by default)\n"

/-- The package level flag variables `chainId`, `privateKey`, `signer` and the
positional arguments `flag.Args()`, as they stand once `flag.Parse()` has
returned. -/
structure Flags where
  chainId : Int
  privateKey : String
  signer : String
  args : List String
deriving DecidableEq

/-- Go struct `result`, the value handed to `json.MarshalIndent`. -/
structure result where
  Error : String
  Signer : String
  ChainId : Int
  SignedTx : String
deriving DecidableEq

/-- A JSON value of the kinds `result` holds: a string or an integer. -/
inductive JVal where
  | str (s : String)
  | num (n : Int)
deriving DecidableEq

/-- Go's `json.MarshalIndent` on a `result`, as the ordered members of the
object it prints.  The struct tags are `error,omitempty`, `signer`, `chain_id`
and `signed_tx,omitempty`: an empty `Error` or `SignedTx` is left out.  Strings
and an `int64` always marshal, so the error return is never taken. -/
def MarshalIndent (data : result) : Except String (List (String × JVal)) :=
  .ok ((if data.Error = "" then [] else [("error", JVal.str data.Error)])
    ++ [("signer", JVal.str data.Signer), ("chain_id", JVal.num data.ChainId)]
    ++ (if data.SignedTx = "" then [] else [("signed_tx", JVal.str data.SignedTx)]))

/-- The four library stages of the pipeline in `main`, in program order:
`hex.DecodeString`, `UnmarshalBinary`, `types.SignTx`, `MarshalBinary`. -/
inductive Stage where
  | hexDecode
  | decode
  | sign
  | encode
deriving DecidableEq

/-- What a run wrote before it ended. -/
inductive Printed where
  /-- `fmt.Print(usageString)` on standard output. -/
  | stdoutText (s : String)
  /-- `fmt.Println(string(jsonData))`: the members of the JSON object. -/
  | stdoutJson (members : List (String × JVal))
  /-- `fmt.Println(signedTx)`: the byte slice in Go's default format. -/
  | stdoutBytes (b : List Nat)
  /-- `log.Fatalf` / `log.Fatal`: the message on standard error. -/
  | stderrLog (msg : String)
  /-- a Go run time panic (index out of range). -/
  | runtimePanic
deriving DecidableEq

/-- End state of the process: what was printed, the exit status, and the
pipeline stages that had been called, in order. -/
structure Exit where
  printed : Printed
  code : Nat
  ran : List Stage
deriving DecidableEq

/-- The functions of go-ethereum that `main` calls, over the library's own
types: `crypto.HexToECDSA`, `types.NewLondonSigner`, `types.NewEIP155Signer`,
`(*Transaction).UnmarshalBinary`, `types.SignTx`, `(*Transaction).MarshalBinary`.
A Go `error` is kept as its `Error()` text. -/
structure GoEthereum (PrivateKey Transaction Signer : Type) where
  HexToECDSA : String → Except String PrivateKey
  NewLondonSigner : Int → Signer
  NewEIP155Signer : Int → Signer
  UnmarshalBinary : List Nat → Except String Transaction
  SignTx : Transaction → Signer → PrivateKey → Except String Transaction
  MarshalBinary : Transaction → Except String (List Nat)

/-- Function `showUsage`: prints the usage text and exits with status 1. -/
def showUsage : Exit :=
  ⟨.stdoutText usageString, 1, []⟩

/-- `log.Fatalf` in `main`: the message goes to standard error, exit status 1. -/
def logFatalf (msg : String) : Exit :=
  ⟨.stderrLog msg, 1, []⟩

/-- Function `printErrorResult`: marshals a `result` with the error text, the
signer flag and the chain id flag, prints it and exits with status 1. -/
def printErrorResult (f : Flags) (ran : List Stage) (errStr : String) : Exit :=
  match MarshalIndent ⟨errStr, f.signer, f.chainId, ""⟩ with
  | .error _ => ⟨.stderrLog errStr, 1, ran⟩
  | .ok jsonData => ⟨.stdoutJson jsonData, 1, ran⟩

/-- Function `printResult`: marshals a `result` with the hex encoded signed
transaction, prints it and exits with status 0. -/
def printResult (f : Flags) (ran : List Stage) (signedTx : List Nat) : Exit :=
  match MarshalIndent ⟨"", f.signer, f.chainId, EncodeToString signedTx⟩ with
  | .error _ => ⟨.stdoutBytes signedTx, 0, ran⟩
  | .ok jsonData => ⟨.stdoutJson jsonData, 0, ran⟩

/-- The `switch signer` of `main`: `"london"` and `"legacy"` build a signer for
the chain id, any other value reaches `showUsage`. -/
def txSignerOf {K T S : Type} (L : GoEthereum K T S) (signer : String) (chainIdBig : Int) : Option S :=
  if signer = "london" then some (L.NewLondonSigner chainIdBig)
  else if signer = "legacy" then some (L.NewEIP155Signer chainIdBig)
  else none

/-- Function `main`, from the statement after `flag.Parse()` on.  Every
`showUsage`, `log.Fatalf`, `printErrorResult` and `printResult` ends the
process, so each is a return here. -/
def main {K T S : Type} (L : GoEthereum K T S) (f : Flags) : Exit :=
  let argsLen := f.args.length
  if argsLen = 0 then showUsage
  else if f.privateKey = "" then showUsage
  else
    match L.HexToECDSA f.privateKey with
    | .error err => logFatalf ("failed to read private key: " ++ err)
    | .ok privKey =>
      if f.chainId = 0 then showUsage
      else
        match txSignerOf L f.signer f.chainId with
        | none => showUsage
        | some txSigner =>
          match f.args[argsLen - 1]? with
          | none => ⟨.runtimePanic, 2, []⟩
          | some unsignedHexTx =>
            match DecodeString unsignedHexTx with
            | .error err =>
              printErrorResult f [.hexDecode] ("failed to hex decode unsigned tx: " ++ err.Error)
            | .ok rawTx =>
              match L.UnmarshalBinary rawTx with
              | .error err =>
                printErrorResult f [.hexDecode, .decode] ("failed to decode unsigned tx: " ++ err)
              | .ok unsignedTx =>
                match L.SignTx unsignedTx txSigner privKey with
                | .error err =>
                  printErrorResult f [.hexDecode, .decode, .sign]
                    ("failed to sign transaction: " ++ err)
                | .ok signedRawTx =>
                  match L.MarshalBinary signedRawTx with
                  | .error err =>
                    printErrorResult f [.hexDecode, .decode, .sign, .encode]
                      ("failed to encoded signed transaction: " ++ err)
                  | .ok signedTx =>
                    printResult f [.hexDecode, .decode, .sign, .encode] signedTx

/-- The value of member `key` in what was printed, when a JSON object was
printed and has that member. -/
def Printed.member (p : Printed) (key : String) : Option JVal :=
  match p with
  | .stdoutJson members => (members.find? fun kv => kv.1 == key).map Prod.snd
  | _ => none

/-! ## The signing core behind the library calls

go-ethereum is an imported module, not code of this repository.  Where a
statement needs to know what `UnmarshalBinary`, `types.SignTx` or
`MarshalBinary` compute, the definitions below are used: they follow the
specification's description of the codec (§4.1), the signing hash (§4.2), the
signer contract (§4.3) and the signature assembly (§4.4).  The hash function
and the ECDSA primitive stay parameters. -/

/-- Modelled from the spec: the error taxonomy of §7 together with the
`InvalidDigest` failure of the signer contract in §4.3; go-ethereum's own
error values are not in the repository. -/
inductive CoreError where
  | InvalidKey
  | InvalidDigest
  | InvalidChainId
  | UnsupportedScheme
  | MalformedEncoding
  | UnsupportedType
  | SchemeMismatch
  | SigningError
  | EncodeError
deriving DecidableEq

/-- Modelled from the spec: the text a classified error of §7 is reported
with, its name; the library's messages are not in the repository. -/
def CoreError.Error : CoreError → String
  | .InvalidKey => "InvalidKey"
  | .InvalidDigest => "InvalidDigest"
  | .InvalidChainId => "InvalidChainId"
  | .UnsupportedScheme => "UnsupportedScheme"
  | .MalformedEncoding => "MalformedEncoding"
  | .UnsupportedType => "UnsupportedType"
  | .SchemeMismatch => "SchemeMismatch"
  | .SigningError => "SigningError"
  | .EncodeError => "EncodeError"

/-- Modelled from the spec: the `Legacy` variant of §3 (`types.LegacyTx` is
not in the repository).  The field `to` is `toAddr` here (`to` is a reserved word), and `none` is contract creation. -/
structure LegacyTx where
  nonce : Nat
  gasPrice : Nat
  gasLimit : Nat
  toAddr : Option (List Nat)
  value : Nat
  data : List Nat
deriving DecidableEq

/-- Modelled from the spec: one entry of the access list of §3, an address
with its ordered storage keys. -/
structure AccessTuple where
  address : List Nat
  storageKeys : List (List Nat)
deriving DecidableEq

/-- Modelled from the spec: the `Typed` variant of §3 (`types.DynamicFeeTx` is
not in the repository). -/
structure TypedTx where
  chainId : Nat
  nonce : Nat
  maxPriorityFeePerGas : Nat
  maxFeePerGas : Nat
  gasLimit : Nat
  toAddr : Option (List Nat)
  value : Nat
  data : List Nat
  accessList : List AccessTuple
deriving DecidableEq

/-- Modelled from the spec: the tagged union `TransactionVariant` of §3. -/
inductive TransactionVariant where
  | Legacy (tx : LegacyTx)
  | Typed (tx : TypedTx)
deriving DecidableEq

/-- Modelled from the spec: `Signature` of §3, `(v, r, s)` for Legacy and
`(yParity, r, s)` for Typed, the first component held in `v`. -/
structure Signature where
  v : Nat
  r : Nat
  s : Nat
deriving DecidableEq

/-- Modelled from the spec: the scheme selector of `ChainConfig` in §3. -/
inductive SignerScheme where
  | Legacy
  | Typed
deriving DecidableEq

/-- Modelled from the spec: `ChainConfig` of §3, what `types.NewLondonSigner`
and `types.NewEIP155Signer` stand for. -/
structure ChainConfig where
  chainId : Nat
  signerScheme : SignerScheme
deriving DecidableEq

/-- Modelled from the spec: the value behind `*types.Transaction`, a variant
and the signature attached to it, if any (`SignedTransaction` of §3 when there
is one). -/
structure Transaction where
  variant : TransactionVariant
  signature : Option Signature
deriving DecidableEq

/-- Modelled from the spec: the external collaborators of §2 and §4.3 over a
key type, kept abstract: the private key parser of the command surface, the
256-bit hash of §4.2 and the ECDSA primitive `sign(key, digest)` returning
`(r, s, recoveryId)`. -/
structure Primitives (Key : Type) where
  HexToECDSA : String → Except String Key
  hash : List Nat → List Nat
  sign : Key → List Nat → Except CoreError (Nat × Nat × Nat)

/-- Modelled from the spec: the value of a big-endian byte string, for the
integer fields of §4.1. -/
def fromBE (b : List Nat) : Nat :=
  b.foldl (fun acc x => acc * 256 + x) 0

/-- Modelled from the spec: worker of `toBE`, peeling the low byte `fuel` times at most. -/
def toBEAux : Nat → Nat → List Nat → List Nat
  | 0, _, acc => acc
  | fuel + 1, n, acc => if n = 0 then acc else toBEAux fuel (n / 256) ((n % 256) :: acc)

/-- Modelled from the spec: the minimal big-endian byte representation of an
integer of §4.1: no leading zero byte, and `0` is the empty byte string. -/
def toBE (n : Nat) : List Nat :=
  toBEAux n n []

/-- Modelled from the spec: the length header of the length-prefixed encoding
of §4.1 (RLP, which the spec leaves to a helper library): payloads shorter
than 56 bytes put their length in the lead byte, longer ones put the length of
the length there, followed by the length in big-endian. -/
def encodeHeader (offset len : Nat) : List Nat :=
  if len < 56 then [offset + len] else (offset + 55 + (toBE len).length) :: toBE len

/-- Modelled from the spec: the encoding of a byte string; a single byte below
`0x80` is its own encoding. -/
def encodeStr (b : List Nat) : List Nat :=
  match b with
  | [x] => if x < 128 then [x] else [129, x]
  | _ => encodeHeader 128 b.length ++ b

/-- Modelled from the spec: the encoding of a list from the encodings of its items. -/
def encodeList (items : List (List Nat)) : List Nat :=
  encodeHeader 192 items.flatten.length ++ items.flatten

/-- Modelled from the spec: an integer field, §4.1. -/
def encodeUint (n : Nat) : List Nat :=
  encodeStr (toBE n)

/-- Modelled from the spec: the optional `to` field, a zero-length entry for
contract creation (§4.1). -/
def encodeTo : Option (List Nat) → List Nat
  | none => encodeStr []
  | some a => encodeStr a

/-- Modelled from the spec: the Legacy field list `[nonce, gasPrice, gasLimit,
to, value, data]` of §4.1, each field encoded. -/
def legacyFields (t : LegacyTx) : List (List Nat) :=
  [encodeUint t.nonce, encodeUint t.gasPrice, encodeUint t.gasLimit, encodeTo t.toAddr,
    encodeUint t.value, encodeStr t.data]

/-- Modelled from the spec: one access list entry, the pair of the address and
the list of its storage keys. -/
def encodeAccessTuple (e : AccessTuple) : List Nat :=
  encodeList [encodeStr e.address, encodeList (e.storageKeys.map encodeStr)]

/-- Modelled from the spec: the access list of §3 as a list of entries. -/
def encodeAccessList (al : List AccessTuple) : List Nat :=
  encodeList (al.map encodeAccessTuple)

/-- Modelled from the spec: the Typed field list of §4.1 after its chain id:
`[nonce, maxPriorityFeePerGas, maxFeePerGas, gasLimit, to, value, data,
accessList]`. -/
def typedFieldsAfterChainId (t : TypedTx) : List (List Nat) :=
  [encodeUint t.nonce, encodeUint t.maxPriorityFeePerGas, encodeUint t.maxFeePerGas,
    encodeUint t.gasLimit, encodeTo t.toAddr, encodeUint t.value, encodeStr t.data,
    encodeAccessList t.accessList]

/-- Modelled from the spec: the fields `[v, r, s]` (`[yParity, r, s]`) a
signature adds to a field list, §4.1. -/
def signatureFields : Option Signature → List (List Nat)
  | none => []
  | some sig => [encodeUint sig.v, encodeUint sig.r, encodeUint sig.s]

/-- Every element is a byte. -/
def isBytes (b : List Nat) : Bool :=
  b.all fun x => decide (x < 256)

/-- Modelled from the spec: the `to` field is absent or a 20-byte address (§3). -/
def validTo : Option (List Nat) → Bool
  | none => true
  | some a => a.length == 20 && isBytes a

/-- Modelled from the spec: an access list entry is a 20-byte address with
32-byte storage keys (§3). -/
def AccessTuple.valid (e : AccessTuple) : Bool :=
  e.address.length == 20 && isBytes e.address &&
    e.storageKeys.all fun k => k.length == 32 && isBytes k

/-- Modelled from the spec: the field types of `Legacy` in §3: `uint64` nonce
and gas limit, `uint256` gas price and value. -/
def LegacyTx.valid (t : LegacyTx) : Bool :=
  decide (t.nonce < 2 ^ 64) && decide (t.gasPrice < 2 ^ 256) && decide (t.gasLimit < 2 ^ 64) &&
    validTo t.toAddr && decide (t.value < 2 ^ 256) && isBytes t.data

/-- Modelled from the spec: the field types of `Typed` in §3. -/
def TypedTx.valid (t : TypedTx) : Bool :=
  decide (t.chainId < 2 ^ 256) && decide (t.nonce < 2 ^ 64) &&
    decide (t.maxPriorityFeePerGas < 2 ^ 256) && decide (t.maxFeePerGas < 2 ^ 256) &&
    decide (t.gasLimit < 2 ^ 64) && validTo t.toAddr && decide (t.value < 2 ^ 256) && isBytes t.data &&
    t.accessList.all AccessTuple.valid

/-- Modelled from the spec: a transaction value whose fields are within the types of §3. -/
def TransactionVariant.valid : TransactionVariant → Bool
  | .Legacy t => t.valid
  | .Typed t => t.valid

/-- Modelled from the spec: `r` and `s` of an attached signature are `uint256` (§3). -/
def signatureValid : Option Signature → Bool
  | none => true
  | some sig => decide (sig.r < 2 ^ 256) && decide (sig.s < 2 ^ 256)

/-- Modelled from the spec: `encode` of §4.1, the codec behind `MarshalBinary`
(go-ethereum, not in the repository).  Legacy is the field list, extended with
`[v, r, s]` when signed; Typed is the byte `0x02` followed by the field list,
extended with `[yParity, r, s]` when signed.  It fails with `EncodeError` only
when a field is outside its type. -/
def encode (tx : TransactionVariant) (sig : Option Signature) : Except CoreError (List Nat) :=
  if tx.valid && signatureValid sig then
    match tx with
    | .Legacy t => .ok (encodeList (legacyFields t ++ signatureFields sig))
    | .Typed t =>
      .ok (2 :: encodeList (encodeUint t.chainId :: typedFieldsAfterChainId t ++ signatureFields sig))
  else .error .EncodeError

/-- Modelled from the spec: a long item of the length-prefixed encoding: `ll`
length bytes without a leading zero, announcing at least 56 payload bytes, all
of which must be present.  Returns the payload and what follows it. -/
def splitLong (isList : Bool) (ll : Nat) (t : List Nat) : Option (Bool × List Nat × List Nat) :=
  if t.length < ll then none
  else if (t.take ll).head? = some 0 then none
  else if fromBE (t.take ll) < 56 then none
  else if (t.drop ll).length < fromBE (t.take ll) then none
  else some (isList, (t.drop ll).take (fromBE (t.take ll)), (t.drop ll).drop (fromBE (t.take ll)))

/-- Modelled from the spec: reads one item of the length-prefixed encoding of
§4.1 off the front of the input: whether it is a list, its payload, and the
bytes after it; `none` when the input is not a well-formed structure
(truncated, or a length not in its shortest form). -/
def splitItem : List Nat → Option (Bool × List Nat × List Nat)
  | [] => none
  | h :: t =>
    if h < 128 then some (false, [h], t)
    else if h < 184 then
      if t.length < h - 128 then none
      else if h = 129 ∧ (t.head?.getD 0) < 128 then none
      else some (false, t.take (h - 128), t.drop (h - 128))
    else if h < 192 then splitLong false (h - 183) t
    else if h < 248 then
      if t.length < h - 192 then none
      else some (true, t.take (h - 192), t.drop (h - 192))
    else if h < 256 then splitLong true (h - 247) t
    else none

/-- Modelled from the spec: splits a payload into its consecutive items, each
with its list flag; `fuel` bounds the number of items. -/
def splitAll : Nat → List Nat → Option (List (Bool × List Nat))
  | _, [] => some []
  | 0, _ :: _ => none
  | fuel + 1, h :: t =>
    match splitItem (h :: t) with
    | none => none
    | some (isList, payload, rest) =>
      match splitAll fuel rest with
      | none => none
      | some items => some ((isList, payload) :: items)

/-- Modelled from the spec: the items of an input that is exactly one list. -/
def listItems (b : List Nat) : Option (List (Bool × List Nat)) :=
  match splitItem b with
  | some (true, payload, []) => splitAll payload.length payload
  | _ => none

/-- Modelled from the spec: an integer field of at most `maxLen` bytes in its
minimal big-endian form (§4.1). -/
def decodeUint (maxLen : Nat) (p : List Nat) : Option Nat :=
  if maxLen < p.length then none
  else if p.head? = some 0 then none
  else some (fromBE p)

/-- Modelled from the spec: the optional `to` field, empty or 20 bytes (§4.1). -/
def decodeTo (p : List Nat) : Option (Option (List Nat)) :=
  if p = [] then some none
  else if p.length = 20 then some (some p)
  else none

/-- Modelled from the spec: the storage keys of one access list entry, byte
strings of 32 bytes each. -/
def decodeKeys : List (Bool × List Nat) → Option (List (List Nat))
  | [] => some []
  | (isList, k) :: rest =>
    if isList then none
    else if k.length ≠ 32 then none
    else
      match decodeKeys rest with
      | none => none
      | some ks => some (k :: ks)

/-- Modelled from the spec: one access list entry, the list `[address, [keys]]`. -/
def decodeAccessTuple (item : Bool × List Nat) : Option AccessTuple :=
  if item.1 then
    match splitAll item.2.length item.2 with
    | some [(false, addr), (true, keysPayload)] =>
      if addr.length ≠ 20 then none
      else
        match splitAll keysPayload.length keysPayload with
        | none => none
        | some keyItems =>
          match decodeKeys keyItems with
          | none => none
          | some ks => some ⟨addr, ks⟩
    | _ => none
  else none

/-- Modelled from the spec: the entries of an access list, in order. -/
def decodeAccessTuples : List (Bool × List Nat) → Option (List AccessTuple)
  | [] => some []
  | item :: rest =>
    match decodeAccessTuple item with
    | none => none
    | some e =>
      match decodeAccessTuples rest with
      | none => none
      | some es => some (e :: es)

/-- Modelled from the spec: the Legacy fields, decoded positionally in the
order of §3; any other number or kind of items is a mismatch. -/
def decodeLegacyFields : List (Bool × List Nat) → Option LegacyTx
  | [(false, n), (false, gp), (false, gl), (false, ta), (false, v), (false, d)] =>
    match decodeUint 8 n, decodeUint 32 gp, decodeUint 8 gl, decodeTo ta, decodeUint 32 v with
    | some nonce, some gasPrice, some gasLimit, some toAddr, some value =>
      some ⟨nonce, gasPrice, gasLimit, toAddr, value, d⟩
    | _, _, _, _, _ => none
  | _ => none

/-- Modelled from the spec: the Typed fields, decoded positionally in the order of §3. -/
def decodeTypedFields : List (Bool × List Nat) → Option TypedTx
  | [(false, c), (false, n), (false, mp), (false, mf), (false, gl), (false, ta), (false, v),
      (false, d), (true, al)] =>
    match decodeUint 32 c, decodeUint 8 n, decodeUint 32 mp, decodeUint 32 mf, decodeUint 8 gl,
      decodeTo ta, decodeUint 32 v, (splitAll al.length al).bind decodeAccessTuples with
    | some chainId, some nonce, some maxPrio, some maxFee, some gasLimit, some toAddr, some value, some accessList =>
      some ⟨chainId, nonce, maxPrio, maxFee, gasLimit, toAddr, value, d, accessList⟩
    | _, _, _, _, _, _, _, _ => none
  | _ => none

/-- Modelled from the spec: `decode` of §4.1, the codec behind
`UnmarshalBinary` (go-ethereum, not in the repository).  The first byte
decides: a list lead byte (`0xc0` and above) announces a Legacy field list,
the discriminator `0x02` a Typed one, any other first byte is
`UnsupportedType`; whatever is not a well-formed structure with the right
fields is `MalformedEncoding`. -/
def decode (b : List Nat) : Except CoreError TransactionVariant :=
  match b with
  | [] => .error .MalformedEncoding
  | h :: t =>
    if 192 ≤ h ∧ h < 256 then
      match (listItems (h :: t)).bind decodeLegacyFields with
      | some tx => .ok (.Legacy tx)
      | none => .error .MalformedEncoding
    else if h = 2 then
      match (listItems t).bind decodeTypedFields with
      | some tx => .ok (.Typed tx)
      | none => .error .MalformedEncoding
    else .error .UnsupportedType

/-- Modelled from the spec: `derive` of §4.2, the signing hash.  Legacy hashes
the field list with `[chainId, 0, 0]` appended; Typed hashes `0x02` followed by
the field list that starts with the chain id. -/
def derive (hash : List Nat → List Nat) (tx : TransactionVariant) (chainId : Nat) : List Nat :=
  match tx with
  | .Legacy t => hash (encodeList (legacyFields t ++ [encodeUint chainId, encodeUint 0, encodeUint 0]))
  | .Typed t => hash (2 :: encodeList (encodeUint chainId :: typedFieldsAfterChainId t))

/-- Modelled from the spec: `attach` of §4.4.  A zero `r` or `s` is a
`SigningError`; Legacy gets `v = recoveryId + 35 + chainId × 2`; Typed gets the
low bit of a recovery id that must be 0 or 1. -/
def attach (tx : TransactionVariant) (chainId r s recoveryId : Nat) : Except CoreError Transaction :=
  if r = 0 ∨ s = 0 then .error .SigningError
  else
    match tx with
    | .Legacy _ => .ok ⟨tx, some ⟨recoveryId + 35 + chainId * 2, r, s⟩⟩
    | .Typed _ =>
      if recoveryId = 0 ∨ recoveryId = 1 then .ok ⟨tx, some ⟨recoveryId % 2, r, s⟩⟩
      else .error .SigningError

/-- Modelled from the spec: the invariant of `ChainConfig` in §3: the Typed
scheme requires a Typed variant with the same embedded chain id, the Legacy
scheme a Legacy variant. -/
def schemeMatches (cfg : ChainConfig) : TransactionVariant → Bool
  | .Legacy _ => cfg.signerScheme == .Legacy
  | .Typed t => cfg.signerScheme == .Typed && t.chainId == cfg.chainId

/-- Modelled from the spec: a signer for a chain id, what `types.NewLondonSigner`
and `types.NewEIP155Signer` build.  The chain id of §3 is unsigned and a zero
one is `InvalidChainId` (§7), so a value that is not positive has no
configuration. -/
def newSigner (scheme : SignerScheme) (chainId : Int) : Except CoreError ChainConfig :=
  if chainId ≤ 0 then .error .InvalidChainId else .ok ⟨chainId.toNat, scheme⟩

/-- Modelled from the spec: the signing steps of the orchestrator in §4.5,
what `types.SignTx` stands for: check the scheme against the variant, derive
the digest, sign it, attach the signature. -/
def signTransaction {Key : Type} (P : Primitives Key) (tx : Transaction)
    (sgn : Except CoreError ChainConfig) (key : Key) : Except CoreError Transaction :=
  match sgn with
  | .error e => .error e
  | .ok cfg =>
    if schemeMatches cfg tx.variant then
      match P.sign key (derive P.hash tx.variant cfg.chainId) with
      | .error e => .error e
      | .ok (r, s, recoveryId) => attach tx.variant cfg.chainId r s recoveryId
    else .error .SchemeMismatch

/-- Modelled from the spec: the library calls of `main` filled in with the
core of §4: `UnmarshalBinary` is `decode`, `types.SignTx` the signing steps,
`MarshalBinary` is `encode`; an error is reported by its name. -/
def core {Key : Type} (P : Primitives Key) :
    GoEthereum Key Transaction (Except CoreError ChainConfig) :=
  ⟨P.HexToECDSA, newSigner .Typed, newSigner .Legacy,
    fun b => match decode b with
      | .error e => .error e.Error
      | .ok tx => .ok ⟨tx, none⟩,
    fun tx sgn key => match signTransaction P tx sgn key with
      | .error e => .error e.Error
      | .ok stx => .ok stx,
    fun tx => match encode tx.variant tx.signature with
      | .error e => .error e.Error
      | .ok b => .ok b⟩

/-- Modelled from the spec: the encoding of an item given as its list flag and
payload: the list header and the payload, or the byte string. -/
def encodeItem (item : Bool × List Nat) : List Nat :=
  if item.1 then encodeHeader 192 item.2.length ++ item.2 else encodeStr item.2

/-- Modelled from the spec: a well-formed transaction encoding is what
`encode` of §4.1 produces for some transaction value without a signature. -/
def WellFormed (b : List Nat) : Prop :=
  ∃ tx, encode tx none = .ok b

/-- Stand-in primitives with fixed outputs, for running `main` on concrete
inputs: every non-empty key text parses to the key `1`, the digest is 32 zero
bytes, and the signature is `(r, s, recoveryId) = (1, 1, 0)`. -/
def fixedPrimitives : Primitives Nat :=
  ⟨fun s => if s = "" then .error "invalid length, need 256 bits" else .ok 1,
    fun _ => List.replicate 32 0, fun _ _ => .ok (1, 1, 0)⟩

/-- The unsigned Legacy transaction of the scenario in §8: nonce 0, gas price
1, gas limit 21000, the all-zero recipient, value 0, no data. -/
def scenarioTx : LegacyTx :=
  ⟨0, 1, 21000, some (List.replicate 20 0), 0, []⟩

/-- The hex text of the encoding of `scenarioTx`. -/
def scenarioHex : String :=
  "dc80018252089400000000000000000000000000000000000000008080"

/-- The bytes `scenarioHex` stands for. -/
def scenarioRaw : List Nat :=
  [220, 128, 1, 130, 82, 8, 148, 0, 0, 0, 0, 0, 0, 0, 0, 0, 0, 0, 0, 0, 0, 0, 0, 0, 0, 0, 0, 128, 128]

/-- A run on the scenario: chain id 1, a private key text, the signer named
`signer`, and `scenarioHex` as the only positional argument. -/
def scenarioFlags (signer : String) : Flags :=
  ⟨1, "01", signer, [scenarioHex]⟩

/-- A private key text that parses: 32 bytes in hex, the scalar 1. -/
def keyOne : String :=
  "0000000000000000000000000000000000000000000000000000000000000001"

/-- The checks `main` makes before the pipeline all pass: there is a positional
argument, the private key flag is set and parses to `key`, the chain id is not
zero, the signer name selects `sgn`, and `arg` is the last positional argument. -/
def Validated {K T S : Type} (L : GoEthereum K T S) (f : Flags) (key : K) (sgn : S) (arg : String) : Prop :=
  f.args ≠ [] ∧ f.privateKey ≠ "" ∧ L.HexToECDSA f.privateKey = .ok key ∧ f.chainId ≠ 0 ∧
    txSignerOf L f.signer f.chainId = some sgn ∧ f.args[f.args.length - 1]? = some arg

/-- All four stages of the pipeline succeed on `arg` and end with the bytes `signedTx`. -/
def PipelineOk {K T S : Type} (L : GoEthereum K T S) (key : K) (sgn : S) (arg : String)
    (signedTx : List Nat) : Prop :=
  ∃ rawTx unsignedTx signedRawTx, DecodeString arg = .ok rawTx ∧ L.UnmarshalBinary rawTx = .ok unsignedTx ∧
    L.SignTx unsignedTx sgn key = .ok signedRawTx ∧ L.MarshalBinary signedRawTx = .ok signedTx

/-- The four stages in program order. -/
def allStages : List Stage := [.hexDecode, .decode, .sign, .encode]

/-- The JSON object `printErrorResult` prints for the message `msg`. -/
def errorObject (f : Flags) (msg : String) : List (String × JVal) :=
  [("error", .str msg), ("signer", .str f.signer), ("chain_id", .num f.chainId)]

/-- A stage of the pipeline fails on `arg`: `ran` lists the stages up to the
first one that fails and `msg` is that stage's message followed by its error. -/
def StageFailure {K T S : Type} (L : GoEthereum K T S) (key : K) (sgn : S) (arg : String)
    (ran : List Stage) (msg : String) : Prop :=
  (∃ e, DecodeString arg = .error e ∧ ran = [.hexDecode] ∧
    msg = "failed to hex decode unsigned tx: " ++ e.Error) ∨
  (∃ rawTx e, DecodeString arg = .ok rawTx ∧ L.UnmarshalBinary rawTx = .error e ∧
    ran = [.hexDecode, .decode] ∧ msg = "failed to decode unsigned tx: " ++ e) ∨
  (∃ rawTx tx e, DecodeString arg = .ok rawTx ∧ L.UnmarshalBinary rawTx = .ok tx ∧
    L.SignTx tx sgn key = .error e ∧ ran = [.hexDecode, .decode, .sign] ∧
    msg = "failed to sign transaction: " ++ e) ∨
  (∃ rawTx tx stx e, DecodeString arg = .ok rawTx ∧ L.UnmarshalBinary rawTx = .ok tx ∧
    L.SignTx tx sgn key = .ok stx ∧ L.MarshalBinary stx = .error e ∧
    ran = [.hexDecode, .decode, .sign, .encode] ∧
    msg = "failed to encoded signed transaction: " ++ e)

/-! ## Theorems -/

theorem last_arg_exists (args : List String) (h : args ≠ []) :
    ∃ arg, args[args.length - 1]? = some arg := by
  have hlen : 0 < args.length := List.length_pos.mpr h
  exact ⟨args[args.length - 1], List.getElem?_eq_getElem (by omega)⟩

theorem printErrorResult_eq (f : Flags) (ran : List Stage) (msg : String) (h : msg ≠ "") :
    printErrorResult f ran msg = ⟨.stdoutJson (errorObject f msg), 1, ran⟩ := by
  simp [printErrorResult, MarshalIndent, errorObject, h]

theorem EncodeToString_eq_empty (b : List Nat) : EncodeToString b = "" ↔ b = [] := by
  cases b with
  | nil => simp [EncodeToString]
  | cons x xs =>
    simp only [EncodeToString, List.flatMap_cons, reduceCtorEq, iff_false]
    intro h
    have := congrArg String.data h
    simp at this

theorem printResult_eq (f : Flags) (ran : List Stage) (signedTx : List Nat) :
    printResult f ran signedTx =
      ⟨.stdoutJson ([("signer", .str f.signer), ("chain_id", .num f.chainId)] ++
        (if signedTx = [] then [] else [("signed_tx", .str (EncodeToString signedTx))])), 0, ran⟩ := by
  simp [printResult, MarshalIndent, EncodeToString_eq_empty]

theorem append_ne_empty (a b : String) (h : a ≠ "") : a ++ b ≠ "" := by
  intro hab
  apply h
  have hd := congrArg String.data hab
  simp only [String.data_append, List.append_eq_nil] at hd
  exact String.ext hd.1

/-- Every run of `main` ends in exactly one of nine ways, fixed by the first check or stage that fails. -/
theorem main_cases {K T S : Type} (L : GoEthereum K T S) (f : Flags) :
    (f.args = [] ∧ main L f = showUsage) ∨
    (f.args ≠ [] ∧ f.privateKey = "" ∧ main L f = showUsage) ∨
    (∃ e, f.args ≠ [] ∧ f.privateKey ≠ "" ∧ L.HexToECDSA f.privateKey = .error e ∧
      main L f = logFatalf ("failed to read private key: " ++ e)) ∨
    (∃ key, f.args ≠ [] ∧ f.privateKey ≠ "" ∧ L.HexToECDSA f.privateKey = .ok key ∧ f.chainId = 0 ∧
      main L f = showUsage) ∨
    (∃ key, f.args ≠ [] ∧ f.privateKey ≠ "" ∧ L.HexToECDSA f.privateKey = .ok key ∧ f.chainId ≠ 0 ∧
      txSignerOf L f.signer f.chainId = none ∧ main L f = showUsage) ∨
    (∃ key sgn arg e, Validated L f key sgn arg ∧ DecodeString arg = .error e ∧
      main L f = printErrorResult f [.hexDecode] ("failed to hex decode unsigned tx: " ++ e.Error)) ∨
    (∃ key sgn arg rawTx e, Validated L f key sgn arg ∧ DecodeString arg = .ok rawTx ∧
      L.UnmarshalBinary rawTx = .error e ∧
      main L f = printErrorResult f [.hexDecode, .decode] ("failed to decode unsigned tx: " ++ e)) ∨
    (∃ key sgn arg rawTx unsignedTx e, Validated L f key sgn arg ∧ DecodeString arg = .ok rawTx ∧
      L.UnmarshalBinary rawTx = .ok unsignedTx ∧ L.SignTx unsignedTx sgn key = .error e ∧
      main L f = printErrorResult f [.hexDecode, .decode, .sign] ("failed to sign transaction: " ++ e)) ∨
    (∃ key sgn arg rawTx unsignedTx signedRawTx e, Validated L f key sgn arg ∧ DecodeString arg = .ok rawTx ∧
      L.UnmarshalBinary rawTx = .ok unsignedTx ∧ L.SignTx unsignedTx sgn key = .ok signedRawTx ∧
      L.MarshalBinary signedRawTx = .error e ∧
      main L f = printErrorResult f allStages ("failed to encoded signed transaction: " ++ e)) ∨
    (∃ key sgn arg signedTx, Validated L f key sgn arg ∧ PipelineOk L key sgn arg signedTx ∧
      main L f = printResult f allStages signedTx) := by
  by_cases h1 : f.args = []
  · left
    exact ⟨h1, by simp [main, h1]⟩
  have h1len : f.args.length ≠ 0 := by simpa using h1
  right
  by_cases h2 : f.privateKey = ""
  · left
    exact ⟨h1, h2, by simp [main, h1, h2]⟩
  right
  cases h3 : L.HexToECDSA f.privateKey with
  | error e =>
    left
    exact ⟨e, h1, h2, rfl, by simp [main, h1, h2, h3]⟩
  | ok key =>
    right
    by_cases h4 : f.chainId = 0
    · left
      exact ⟨key, h1, h2, rfl, h4, by simp [main, h1, h2, h3, h4]⟩
    right
    cases h5 : txSignerOf L f.signer f.chainId with
    | none =>
      left
      exact ⟨key, h1, h2, rfl, h4, rfl, by simp [main, h1, h2, h3, h4, h5]⟩
    | some sgn =>
      right
      obtain ⟨arg, h6⟩ := last_arg_exists f.args h1
      have hv : Validated L f key sgn arg := ⟨h1, h2, h3, h4, h5, h6⟩
      cases h7 : DecodeString arg with
      | error e =>
        left
        exact ⟨key, sgn, arg, e, hv, h7, by simp [main, h1, h2, h3, h4, h5, h6, h7]⟩
      | ok rawTx =>
        right
        cases h8 : L.UnmarshalBinary rawTx with
        | error e =>
          left
          exact ⟨key, sgn, arg, rawTx, e, hv, h7, h8, by simp [main, h1, h2, h3, h4, h5, h6, h7, h8]⟩
        | ok unsignedTx =>
          right
          cases h9 : L.SignTx unsignedTx sgn key with
          | error e =>
            left
            exact ⟨key, sgn, arg, rawTx, unsignedTx, e, hv, h7, h8, h9,
              by simp [main, h1, h2, h3, h4, h5, h6, h7, h8, h9]⟩
          | ok signedRawTx =>
            right
            cases h10 : L.MarshalBinary signedRawTx with
            | error e =>
              left
              exact ⟨key, sgn, arg, rawTx, unsignedTx, signedRawTx, e, hv, h7, h8, h9, h10,
                by simp [main, h1, h2, h3, h4, h5, h6, h7, h8, h9, h10, allStages]⟩
            | ok signedTx =>
              right
              exact ⟨key, sgn, arg, signedTx, hv, ⟨rawTx, unsignedTx, signedRawTx, h7, h8, h9, h10⟩,
                by simp [main, h1, h2, h3, h4, h5, h6, h7, h8, h9, h10, allStages]⟩

/-! ### The codec: integers and items -/

theorem isBytes_iff (b : List Nat) : isBytes b = true ↔ ∀ x ∈ b, x < 256 := by
  simp [isBytes, List.all_eq_true]

theorem fromBE_append_single (l : List Nat) (x : Nat) : fromBE (l ++ [x]) = fromBE l * 256 + x := by
  simp [fromBE, List.foldl_append]

theorem fromBE_eq_ofDigits (l : List Nat) : fromBE l = Nat.ofDigits 256 l.reverse := by
  induction l using List.reverseRecOn with
  | nil => simp [fromBE]
  | append_singleton l x ih =>
    rw [fromBE_append_single, ih]
    simp [Nat.ofDigits_cons]
    omega

theorem toBEAux_eq (fuel n : Nat) (acc : List Nat) (h : n ≤ fuel) :
    toBEAux fuel n acc = (Nat.digits 256 n).reverse ++ acc := by
  induction fuel generalizing n acc with
  | zero =>
    have : n = 0 := by omega
    subst this
    simp [toBEAux]
  | succ fuel ih =>
    unfold toBEAux
    by_cases hn : n = 0
    · subst hn
      simp
    · rw [if_neg hn, ih (n / 256) _ (by omega)]
      rw [Nat.digits_def' (by norm_num) (Nat.pos_of_ne_zero hn)]
      simp

theorem toBE_eq_digits (n : Nat) : toBE n = (Nat.digits 256 n).reverse := by
  simp [toBE, toBEAux_eq n n [] (le_refl n)]

theorem toBE_fromBE (l : List Nat) (hb : isBytes l = true) (hz : l.head? ≠ some 0) :
    toBE (fromBE l) = l := by
  rw [toBE_eq_digits, fromBE_eq_ofDigits, Nat.digits_ofDigits 256 (by norm_num)]
  · simp
  · intro x hx
    exact (isBytes_iff l).mp hb x (by simpa using hx)
  · intro hne
    rw [List.getLast_reverse]
    intro h0
    apply hz
    cases l with
    | nil => simp at hne
    | cons a t => simp at h0; simp [h0]

theorem fromBE_lt (l : List Nat) (hb : isBytes l = true) : fromBE l < 256 ^ l.length := by
  rw [fromBE_eq_ofDigits]
  have := Nat.ofDigits_lt_base_pow_length (b := 256) (l := l.reverse) (by norm_num)
    (fun x hx => (isBytes_iff l).mp hb x (by simpa using hx))
  simpa using this

theorem isBytes_cons (x : Nat) (l : List Nat) : isBytes (x :: l) = true ↔ x < 256 ∧ isBytes l = true := by
  simp [isBytes]

theorem isBytes_append (a b : List Nat) : isBytes (a ++ b) = true ↔ isBytes a = true ∧ isBytes b = true := by
  simp [isBytes, List.all_append]

theorem isBytes_take (n : Nat) (l : List Nat) (h : isBytes l = true) : isBytes (l.take n) = true := by
  rw [isBytes_iff] at h ⊢
  intro x hx
  exact h x (List.mem_of_mem_take hx)

theorem isBytes_drop (n : Nat) (l : List Nat) (h : isBytes l = true) : isBytes (l.drop n) = true := by
  rw [isBytes_iff] at h ⊢
  intro x hx
  exact h x (List.mem_of_mem_drop hx)

theorem encodeStr_long (p : List Nat) (h : 2 ≤ p.length) : encodeStr p = encodeHeader 128 p.length ++ p := by
  match p, h with
  | _ :: _ :: _, _ => rfl

theorem splitLong_sound (k : Bool) (ll : Nat) (t : List Nat) (k2 : Bool) (p rest : List Nat)
    (h : splitLong k ll t = some (k2, p, rest)) (hb : isBytes t = true) :
    k2 = k ∧ 56 ≤ p.length ∧ t = toBE p.length ++ (p ++ rest) ∧ (toBE p.length).length = ll := by
  unfold splitLong at h
  split_ifs at h with h1 h2 h3 h4
  simp only [Option.some.injEq, Prod.mk.injEq] at h
  obtain ⟨hk, hp, hr⟩ := h
  have hlen : p.length = fromBE (t.take ll) := by
    rw [← hp, List.length_take]
    omega
  have hto : toBE p.length = t.take ll := by
    rw [hlen]
    exact toBE_fromBE _ (isBytes_take _ _ hb) h2
  refine ⟨hk.symm, by omega, ?_, ?_⟩
  · rw [hto, ← hp, ← hr, List.take_append_drop, List.take_append_drop]
  · rw [hto, List.length_take]
    omega

theorem splitItem_sound (b : List Nat) (k : Bool) (p rest : List Nat)
    (h : splitItem b = some (k, p, rest)) (hb : isBytes b = true) :
    b = encodeItem (k, p) ++ rest ∧ isBytes p = true ∧ isBytes rest = true ∧ rest.length < b.length := by
  cases b with
  | nil => simp [splitItem] at h
  | cons x t =>
    obtain ⟨hx, ht⟩ := (isBytes_cons x t).mp hb
    simp only [splitItem] at h
    by_cases c1 : x < 128
    · rw [if_pos c1] at h
      simp only [Option.some.injEq, Prod.mk.injEq] at h
      obtain ⟨hk, hp, hr⟩ := h
      subst hk hp hr
      refine ⟨by simp [encodeItem, encodeStr, c1], by simp [isBytes, hx], ht, by simp⟩
    rw [if_neg c1] at h
    by_cases c2 : x < 184
    · rw [if_pos c2] at h
      split_ifs at h with d1 d2
      simp only [Option.some.injEq, Prod.mk.injEq] at h
      obtain ⟨hk, hp, hr⟩ := h
      have hlen : p.length = x - 128 := by
        rw [← hp, List.length_take]
        omega
      refine ⟨?_, hp ▸ isBytes_take _ _ ht, hr ▸ isBytes_drop _ _ ht, ?_⟩
      · subst hk
        have htd : t = p ++ rest := by rw [← hp, ← hr, List.take_append_drop]
        simp only [encodeItem, Bool.false_eq_true, if_false]
        match p, hlen, htd with
        | [], hlen, htd =>
          simp only [List.length_nil] at hlen
          have : x = 128 := by omega
          simp [encodeStr, encodeHeader, this, htd]
        | [y], hlen, htd =>
          simp only [List.length_singleton] at hlen
          have hx129 : x = 129 := by omega
          have hy : ¬ y < 128 := by
            intro hy
            apply d2
            refine ⟨hx129, ?_⟩
            rw [htd]
            simpa using hy
          simp [encodeStr, hy, hx129, htd]
        | y :: z :: q, hlen, htd =>
          rw [encodeStr_long _ (by simp)]
          have h56 : (y :: z :: q).length < 56 := by omega
          simp only [encodeHeader, if_pos h56]
          rw [hlen, htd]
          have : 128 + (x - 128) = x := by omega
          simp [this]
      · rw [← hr, List.length_drop]
        simp
        omega
    rw [if_neg c2] at h
    by_cases c3 : x < 192
    · rw [if_pos c3] at h
      obtain ⟨hk, h56, htd, hll⟩ := splitLong_sound _ _ _ _ _ _ h ht
      subst hk
      have hbp : isBytes (toBE p.length ++ (p ++ rest)) = true := htd ▸ ht
      rw [isBytes_append, isBytes_append] at hbp
      refine ⟨?_, hbp.2.1, hbp.2.2, ?_⟩
      · simp only [encodeItem, Bool.false_eq_true, if_false]
        rw [encodeStr_long _ (by omega)]
        have hn : ¬ p.length < 56 := by omega
        simp only [encodeHeader, if_neg hn, hll]
        have : 128 + 55 + (x - 183) = x := by omega
        rw [this]
        simp only [List.cons_append, List.append_assoc]
        rw [← htd]
      · have := congrArg List.length htd
        simp only [List.length_append] at this
        simp only [List.length_cons]
        omega
    rw [if_neg c3] at h
    by_cases c4 : x < 248
    · rw [if_pos c4] at h
      split_ifs at h with d1
      simp only [Option.some.injEq, Prod.mk.injEq] at h
      obtain ⟨hk, hp, hr⟩ := h
      have hlen : p.length = x - 192 := by
        rw [← hp, List.length_take]
        omega
      refine ⟨?_, hp ▸ isBytes_take _ _ ht, hr ▸ isBytes_drop _ _ ht, ?_⟩
      · subst hk
        have htd : t = p ++ rest := by rw [← hp, ← hr, List.take_append_drop]
        have h56 : p.length < 56 := by omega
        simp only [encodeItem, if_true, encodeHeader, if_pos h56]
        rw [hlen, htd]
        have : 192 + (x - 192) = x := by omega
        simp [this]
      · rw [← hr, List.length_drop]
        simp
        omega
    rw [if_neg c4] at h
    by_cases c5 : x < 256
    · rw [if_pos c5] at h
      obtain ⟨hk, h56, htd, hll⟩ := splitLong_sound _ _ _ _ _ _ h ht
      subst hk
      have hbp : isBytes (toBE p.length ++ (p ++ rest)) = true := htd ▸ ht
      rw [isBytes_append, isBytes_append] at hbp
      refine ⟨?_, hbp.2.1, hbp.2.2, ?_⟩
      · have hn : ¬ p.length < 56 := by omega
        simp only [encodeItem, if_true, encodeHeader, if_neg hn, hll]
        have : 192 + 55 + (x - 247) = x := by omega
        rw [this]
        simp only [List.cons_append, List.append_assoc]
        rw [← htd]
      · have := congrArg List.length htd
        simp only [List.length_append] at this
        simp only [List.length_cons]
        omega
    · omega

/-! ### The codec: whatever is decoded is an encoding -/

theorem splitAll_sound (fuel : Nat) (b : List Nat) (items : List (Bool × List Nat))
    (h : splitAll fuel b = some items) (hb : isBytes b = true) :
    b = (items.map encodeItem).flatten ∧ ∀ it ∈ items, isBytes it.2 = true := by
  induction fuel generalizing b items with
  | zero =>
    cases b with
    | nil =>
      simp only [splitAll, Option.some.injEq] at h
      subst h
      simp
    | cons x t => simp [splitAll] at h
  | succ fuel ih =>
    cases b with
    | nil =>
      simp only [splitAll, Option.some.injEq] at h
      subst h
      simp
    | cons x t =>
      simp only [splitAll] at h
      cases hs : splitItem (x :: t) with
      | none => simp [hs] at h
      | some r =>
        obtain ⟨k, p, rest⟩ := r
        simp only [hs] at h
        cases hr : splitAll fuel rest with
        | none => simp [hr] at h
        | some more =>
          simp only [hr, Option.some.injEq] at h
          subst h
          obtain ⟨heq, hp, hrest, _⟩ := splitItem_sound _ _ _ _ hs hb
          obtain ⟨hmore, hall⟩ := ih rest more hr hrest
          refine ⟨?_, ?_⟩
          · rw [heq]
            simp only [List.map_cons, List.flatten_cons]
            rw [← hmore]
          · intro it hit
            simp only [List.mem_cons] at hit
            rcases hit with rfl | hit
            · exact hp
            · exact hall it hit

theorem decodeUint_sound (m : Nat) (p : List Nat) (n : Nat) (h : decodeUint m p = some n)
    (hb : isBytes p = true) : encodeUint n = encodeStr p ∧ n < 256 ^ m := by
  unfold decodeUint at h
  split_ifs at h with h1 h2
  simp only [Option.some.injEq] at h
  subst h
  refine ⟨by rw [encodeUint, toBE_fromBE p hb h2], ?_⟩
  calc fromBE p < 256 ^ p.length := fromBE_lt p hb
    _ ≤ 256 ^ m := Nat.pow_le_pow_right (by norm_num) (by omega)

theorem decodeTo_sound (p : List Nat) (a : Option (List Nat)) (h : decodeTo p = some a)
    (hb : isBytes p = true) : encodeTo a = encodeStr p ∧ validTo a = true := by
  unfold decodeTo at h
  split_ifs at h with h1 h2
  · simp only [Option.some.injEq] at h
    subst h
    simp [encodeTo, h1, validTo]
  · simp only [Option.some.injEq] at h
    subst h
    simp [encodeTo, validTo, h2, hb]

theorem decodeKeys_sound (items : List (Bool × List Nat)) (ks : List (List Nat))
    (h : decodeKeys items = some ks) (hb : ∀ it ∈ items, isBytes it.2 = true) :
    items.map encodeItem = ks.map encodeStr ∧
      (ks.all fun k => k.length == 32 && isBytes k) = true := by
  induction items generalizing ks with
  | nil =>
    simp only [decodeKeys, Option.some.injEq] at h
    subst h
    simp
  | cons it rest ih =>
    obtain ⟨k, key⟩ := it
    simp only [decodeKeys] at h
    split_ifs at h with h1 h2
    cases hr : decodeKeys rest with
    | none => simp [hr] at h
    | some ks2 =>
      simp only [hr, Option.some.injEq] at h
      subst h
      obtain ⟨hm, hv⟩ := ih ks2 hr (fun it hit => hb it (List.mem_cons_of_mem _ hit))
      have hkb := hb (k, key) (List.mem_cons_self _ _)
      simp only [Bool.not_eq_true] at h1
      subst h1
      simp only [ne_eq, Decidable.not_not] at h2
      refine ⟨by simp [encodeItem, hm], ?_⟩
      simp only [List.all_cons, hv, Bool.and_true]
      simp [h2]
      exact hkb

theorem decodeAccessTuple_sound (item : Bool × List Nat) (e : AccessTuple)
    (h : decodeAccessTuple item = some e) (hb : isBytes item.2 = true) :
    encodeItem item = encodeAccessTuple e ∧ e.valid = true := by
  obtain ⟨k, p⟩ := item
  simp only [decodeAccessTuple] at h
  split_ifs at h with hk
  split at h
  · rename_i addr kp hs
    split_ifs at h with hlen
    obtain ⟨hp, hall⟩ := splitAll_sound _ _ _ hs hb
    have hkpb : isBytes kp = true := hall (true, kp) (by simp)
    have haddrb : isBytes addr = true := hall (false, addr) (by simp)
    cases hs2 : splitAll kp.length kp with
    | none => simp [hs2] at h
    | some keyItems =>
      simp only [hs2] at h
      cases hd : decodeKeys keyItems with
      | none => simp [hd] at h
      | some ks =>
        simp only [hd, Option.some.injEq] at h
        subst h
        obtain ⟨hkp, hall2⟩ := splitAll_sound _ _ _ hs2 hkpb
        obtain ⟨hm, hv⟩ := decodeKeys_sound _ _ hd hall2
        simp only [ne_eq, Decidable.not_not] at hlen
        have hkl : encodeList (ks.map encodeStr) = encodeItem (true, kp) := by
          simp only [encodeList, encodeItem, if_true]
          rw [← hm, ← hkp]
        refine ⟨?_, ?_⟩
        · simp only at hk
          subst hk
          simp only [encodeAccessTuple]
          rw [hkl]
          simp only [encodeItem, if_true, encodeList]
          have : [encodeStr addr, encodeHeader 192 kp.length ++ kp].flatten = p := by
            rw [hp]
            simp [encodeItem]
          rw [this]
        · simp only [AccessTuple.valid, hlen, haddrb, hv]
          simp
  · simp at h

theorem decodeAccessTuples_sound (items : List (Bool × List Nat)) (es : List AccessTuple)
    (h : decodeAccessTuples items = some es) (hb : ∀ it ∈ items, isBytes it.2 = true) :
    items.map encodeItem = es.map encodeAccessTuple ∧ es.all AccessTuple.valid = true := by
  induction items generalizing es with
  | nil =>
    simp only [decodeAccessTuples, Option.some.injEq] at h
    subst h
    simp
  | cons it rest ih =>
    simp only [decodeAccessTuples] at h
    cases hd : decodeAccessTuple it with
    | none => simp [hd] at h
    | some e =>
      simp only [hd] at h
      cases hr : decodeAccessTuples rest with
      | none => simp [hr] at h
      | some es2 =>
        simp only [hr, Option.some.injEq] at h
        subst h
        obtain ⟨hm, hv⟩ := ih es2 hr (fun it hit => hb it (List.mem_cons_of_mem _ hit))
        obtain ⟨he, hev⟩ := decodeAccessTuple_sound it e hd (hb it (List.mem_cons_self _ _))
        exact ⟨by simp [he, hm], by simp [hev, hv]⟩

theorem decodeLegacyFields_sound (items : List (Bool × List Nat)) (tx : LegacyTx)
    (h : decodeLegacyFields items = some tx) (hb : ∀ it ∈ items, isBytes it.2 = true) :
    items.map encodeItem = legacyFields tx ∧ tx.valid = true := by
  unfold decodeLegacyFields at h
  split at h
  · rename_i n gp gl ta v d
    split at h
    · rename_i nonce gasPrice gasLimit toAddr value h1 h2 h3 h4 h5
      simp only [Option.some.injEq] at h
      subst h
      have b1 : isBytes n = true := hb (false, n) (by simp)
      have b2 : isBytes gp = true := hb (false, gp) (by simp)
      have b3 : isBytes gl = true := hb (false, gl) (by simp)
      have b4 : isBytes ta = true := hb (false, ta) (by simp)
      have b5 : isBytes v = true := hb (false, v) (by simp)
      have b6 : isBytes d = true := hb (false, d) (by simp)
      obtain ⟨e1, r1⟩ := decodeUint_sound _ _ _ h1 b1
      obtain ⟨e2, r2⟩ := decodeUint_sound _ _ _ h2 b2
      obtain ⟨e3, r3⟩ := decodeUint_sound _ _ _ h3 b3
      obtain ⟨e4, r4⟩ := decodeTo_sound _ _ h4 b4
      obtain ⟨e5, r5⟩ := decodeUint_sound _ _ _ h5 b5
      refine ⟨by simp [legacyFields, encodeItem, e1, e2, e3, e4, e5], ?_⟩
      have p8 : (256 : Nat) ^ 8 = 2 ^ 64 := by norm_num
      have p32 : (256 : Nat) ^ 32 = 2 ^ 256 := by norm_num
      rw [p8] at r1 r3
      rw [p32] at r2 r5
      simp only [LegacyTx.valid, Bool.and_eq_true, decide_eq_true_eq]
      exact ⟨⟨⟨⟨⟨r1, r2⟩, r3⟩, r4⟩, r5⟩, b6⟩
    · simp at h
  · simp at h

theorem decodeTypedFields_sound (items : List (Bool × List Nat)) (tx : TypedTx)
    (h : decodeTypedFields items = some tx) (hb : ∀ it ∈ items, isBytes it.2 = true) :
    items.map encodeItem = encodeUint tx.chainId :: typedFieldsAfterChainId tx ∧ tx.valid = true := by
  unfold decodeTypedFields at h
  split at h
  · rename_i c n mp mf gl ta v d al
    split at h
    · rename_i chainId nonce maxPrio maxFee gasLimit toAddr value accessList h0 h1 h2 h3 h4 h5 h6 h7
      simp only [Option.some.injEq] at h
      subst h
      have b0 : isBytes c = true := hb (false, c) (by simp)
      have b1 : isBytes n = true := hb (false, n) (by simp)
      have b2 : isBytes mp = true := hb (false, mp) (by simp)
      have b3 : isBytes mf = true := hb (false, mf) (by simp)
      have b4 : isBytes gl = true := hb (false, gl) (by simp)
      have b5 : isBytes ta = true := hb (false, ta) (by simp)
      have b6 : isBytes v = true := hb (false, v) (by simp)
      have b7 : isBytes d = true := hb (false, d) (by simp)
      have b8 : isBytes al = true := hb (true, al) (by simp)
      obtain ⟨e0, r0⟩ := decodeUint_sound _ _ _ h0 b0
      obtain ⟨e1, r1⟩ := decodeUint_sound _ _ _ h1 b1
      obtain ⟨e2, r2⟩ := decodeUint_sound _ _ _ h2 b2
      obtain ⟨e3, r3⟩ := decodeUint_sound _ _ _ h3 b3
      obtain ⟨e4, r4⟩ := decodeUint_sound _ _ _ h4 b4
      obtain ⟨e5, r5⟩ := decodeTo_sound _ _ h5 b5
      obtain ⟨e6, r6⟩ := decodeUint_sound _ _ _ h6 b6
      cases hs : splitAll al.length al with
      | none => simp [hs] at h7
      | some entries =>
        simp only [hs, Option.some_bind] at h7
        obtain ⟨hal, hall⟩ := splitAll_sound _ _ _ hs b8
        obtain ⟨e7, r7⟩ := decodeAccessTuples_sound _ _ h7 hall
        have e8 : encodeAccessList accessList = encodeItem (true, al) := by
          simp only [encodeAccessList, encodeList, encodeItem, if_true]
          rw [← e7, ← hal]
        refine ⟨by simp [typedFieldsAfterChainId, e0, e1, e2, e3, e4, e5, e6, e8, encodeItem], ?_⟩
        have p8 : (256 : Nat) ^ 8 = 2 ^ 64 := by norm_num
        have p32 : (256 : Nat) ^ 32 = 2 ^ 256 := by norm_num
        rw [p8] at r1 r4
        rw [p32] at r0 r2 r3 r6
        simp only [TypedTx.valid, Bool.and_eq_true, decide_eq_true_eq]
        exact ⟨⟨⟨⟨⟨⟨⟨⟨r0, r1⟩, r2⟩, r3⟩, r4⟩, r5⟩, r6⟩, b7⟩, r7⟩
    · simp at h
  · simp at h

theorem listItems_sound (b : List Nat) (items : List (Bool × List Nat))
    (h : listItems b = some items) (hb : isBytes b = true) :
    b = encodeList (items.map encodeItem) ∧ ∀ it ∈ items, isBytes it.2 = true := by
  unfold listItems at h
  split at h
  · rename_i payload hs
    obtain ⟨heq, hp, _, _⟩ := splitItem_sound _ _ _ _ hs hb
    obtain ⟨hpay, hall⟩ := splitAll_sound _ _ _ h hp
    refine ⟨?_, hall⟩
    rw [heq]
    simp only [encodeItem, if_true, List.append_nil, encodeList]
    rw [← hpay]
  · simp at h

/-- Whatever `decode` accepts is the encoding of the transaction it returns. -/
theorem decode_sound (b : List Nat) (tx : TransactionVariant) (h : decode b = .ok tx)
    (hb : isBytes b = true) : encode tx none = .ok b ∧ tx.valid = true := by
  unfold decode at h
  split at h
  · simp at h
  · rename_i x t
    split_ifs at h with h1 h2
    · cases hl : listItems (x :: t) with
      | none => simp [hl] at h
      | some items =>
        simp only [hl, Option.some_bind] at h
        cases hd : decodeLegacyFields items with
        | none => simp [hd] at h
        | some ltx =>
          simp only [hd, Except.ok.injEq] at h
          subst h
          obtain ⟨heq, hall⟩ := listItems_sound _ _ hl hb
          obtain ⟨hf, hv⟩ := decodeLegacyFields_sound _ _ hd hall
          refine ⟨?_, hv⟩
          simp only [encode, TransactionVariant.valid, hv, signatureValid, Bool.and_self, if_true,
            signatureFields, List.append_nil]
          rw [← hf, ← heq]
    · cases hl : listItems t with
      | none => simp [hl] at h
      | some items =>
        simp only [hl, Option.some_bind] at h
        cases hd : decodeTypedFields items with
        | none => simp [hd] at h
        | some ttx =>
          simp only [hd, Except.ok.injEq] at h
          subst h
          have htb : isBytes t = true := ((isBytes_cons x t).mp hb).2
          obtain ⟨heq, hall⟩ := listItems_sound _ _ hl htb
          obtain ⟨hf, hv⟩ := decodeTypedFields_sound _ _ hd hall
          refine ⟨?_, hv⟩
          simp only [encode, TransactionVariant.valid, hv, signatureValid, Bool.and_self, if_true,
            signatureFields, List.append_nil]
          rw [← hf, ← heq, h2]

/-! ### Bytes out of the hex decoder, fuel, and the shape of a run -/

theorem fromHexChar_lt (c : Char) (a : Nat) (h : fromHexChar c = some a) : a < 16 := by
  unfold fromHexChar at h
  simp only at h
  split_ifs at h with h1 h2 h3 <;> simp only [Option.some.injEq] at h <;> omega

theorem decodePairs_isBytes (l : List Char) (b : List Nat) (h : decodePairs l = .ok b) :
    isBytes b = true := by
  induction l using decodePairs.induct generalizing b with
  | case1 =>
    simp only [decodePairs, Except.ok.injEq] at h
    subst h
    rfl
  | case2 p hp => simp [decodePairs, hp] at h
  | case3 p x hp => simp [decodePairs, hp] at h
  | case4 p q rest hp => simp [decodePairs, hp] at h
  | case5 p q rest a hp hq => simp [decodePairs, hp, hq] at h
  | case6 p q rest a hp b2 hq e he ih => simp [decodePairs, hp, hq, he] at h
  | case7 p q rest a hp b2 hq bytes hb ih =>
    simp only [decodePairs, hp, hq, hb, Except.ok.injEq] at h
    subst h
    have ha := fromHexChar_lt _ _ hp
    have hb2 := fromHexChar_lt _ _ hq
    rw [isBytes_cons]
    exact ⟨by omega, ih bytes hb⟩

theorem DecodeString_isBytes (s : String) (b : List Nat) (h : DecodeString s = .ok b) :
    isBytes b = true :=
  decodePairs_isBytes _ _ h

theorem splitLong_rest_length (k : Bool) (ll : Nat) (t : List Nat) (r : Bool × List Nat × List Nat)
    (h : splitLong k ll t = some r) : r.2.2.length ≤ t.length := by
  unfold splitLong at h
  split_ifs at h
  simp only [Option.some.injEq] at h
  subst h
  simp only [List.length_drop]
  omega

theorem splitItem_rest_length (b : List Nat) (r : Bool × List Nat × List Nat)
    (h : splitItem b = some r) : r.2.2.length < b.length := by
  cases b with
  | nil => simp [splitItem] at h
  | cons x t =>
    simp only [splitItem] at h
    split_ifs at h
    · simp only [Option.some.injEq] at h
      subst h
      simp
    · simp only [Option.some.injEq] at h
      subst h
      simp only [List.length_drop, List.length_cons]
      omega
    · have := splitLong_rest_length _ _ _ _ h
      simp only [List.length_cons]
      omega
    · simp only [Option.some.injEq] at h
      subst h
      simp only [List.length_drop, List.length_cons]
      omega
    · have := splitLong_rest_length _ _ _ _ h
      simp only [List.length_cons]
      omega

/-- The fuel `splitAll` is given never runs out: any two amounts that cover the
length of the input give the same result. -/
theorem splitAll_fuel (fuel1 fuel2 : Nat) (b : List Nat) (h1 : b.length ≤ fuel1)
    (h2 : b.length ≤ fuel2) : splitAll fuel1 b = splitAll fuel2 b := by
  induction fuel1 generalizing fuel2 b with
  | zero =>
    cases b with
    | nil => cases fuel2 <;> rfl
    | cons x t => simp at h1
  | succ n ih =>
    cases b with
    | nil => cases fuel2 <;> rfl
    | cons x t =>
      cases fuel2 with
      | zero => simp at h2
      | succ m =>
        simp only [splitAll]
        cases hs : splitItem (x :: t) with
        | none => rfl
        | some r =>
          obtain ⟨k, p, rest⟩ := r
          have hlt := splitItem_rest_length _ _ hs
          simp only [List.length_cons] at hlt h1 h2
          simp only
          rw [ih m rest (by omega) (by omega)]

theorem txSignerOf_eq_none {K T S : Type} (L : GoEthereum K T S) (signer : String) (c : Int) :
    txSignerOf L signer c = none ↔ signer ≠ "london" ∧ signer ≠ "legacy" := by
  unfold txSignerOf
  split_ifs <;> simp_all

/-- Once the checks before the pipeline pass, `main` is the pipeline on the last argument. -/
theorem main_of_validated {K T S : Type} (L : GoEthereum K T S) (f : Flags) (key : K) (sgn : S)
    (arg : String) (hv : Validated L f key sgn arg) :
    main L f =
      match DecodeString arg with
      | .error err =>
        printErrorResult f [.hexDecode] ("failed to hex decode unsigned tx: " ++ err.Error)
      | .ok rawTx =>
        match L.UnmarshalBinary rawTx with
        | .error err =>
          printErrorResult f [.hexDecode, .decode] ("failed to decode unsigned tx: " ++ err)
        | .ok unsignedTx =>
          match L.SignTx unsignedTx sgn key with
          | .error err =>
            printErrorResult f [.hexDecode, .decode, .sign] ("failed to sign transaction: " ++ err)
          | .ok signedRawTx =>
            match L.MarshalBinary signedRawTx with
            | .error err =>
              printErrorResult f allStages ("failed to encoded signed transaction: " ++ err)
            | .ok signedTx => printResult f allStages signedTx := by
  obtain ⟨h1, h2, h3, h4, h5, h6⟩ := hv
  have h1len : f.args.length ≠ 0 := by simpa using h1
  cases h7 : DecodeString arg with
  | error e => simp [main, h1len, h2, h3, h4, h5, h6, h7]
  | ok rawTx =>
    cases h8 : L.UnmarshalBinary rawTx with
    | error e => simp [main, h1len, h2, h3, h4, h5, h6, h7, h8]
    | ok unsignedTx =>
      cases h9 : L.SignTx unsignedTx sgn key with
      | error e => simp [main, h1len, h2, h3, h4, h5, h6, h7, h8, h9]
      | ok signedRawTx =>
        cases h10 : L.MarshalBinary signedRawTx with
        | error e => simp [main, h1len, h2, h3, h4, h5, h6, h7, h8, h9, h10, allStages]
        | ok signedTx => simp [main, h1len, h2, h3, h4, h5, h6, h7, h8, h9, h10, allStages]

theorem member_errorObject_signed (f : Flags) (msg : String) :
    (Printed.stdoutJson (errorObject f msg)).member "signed_tx" = none := by
  simp [Printed.member, errorObject, List.find?]

theorem member_showUsage : showUsage.printed.member "signed_tx" = none := rfl

theorem member_logFatalf (msg : String) : (logFatalf msg).printed.member "signed_tx" = none := rfl

/-- Every run ends with status 1, or ends in `printResult` after a full pipeline. -/
theorem main_code_cases {K T S : Type} (L : GoEthereum K T S) (f : Flags) :
    ((main L f).code = 1 ∧ (main L f).printed.member "signed_tx" = none) ∨
    (∃ key sgn arg signedTx, Validated L f key sgn arg ∧ PipelineOk L key sgn arg signedTx ∧
      main L f = printResult f allStages signedTx) := by
  rcases main_cases L f with h | h | h | h | h | h | h | h | h | h
  · left; rw [h.2]; exact ⟨rfl, rfl⟩
  · left; rw [h.2.2]; exact ⟨rfl, rfl⟩
  · obtain ⟨e, _, _, _, h⟩ := h
    left; rw [h]; exact ⟨rfl, rfl⟩
  · obtain ⟨key, _, _, _, _, h⟩ := h
    left; rw [h]; exact ⟨rfl, rfl⟩
  · obtain ⟨key, _, _, _, _, _, h⟩ := h
    left; rw [h]; exact ⟨rfl, rfl⟩
  · obtain ⟨key, sgn, arg, e, _, _, h⟩ := h
    left; rw [h, printErrorResult_eq _ _ _ (append_ne_empty _ _ (by decide))]
    exact ⟨rfl, member_errorObject_signed _ _⟩
  · obtain ⟨key, sgn, arg, rawTx, e, _, _, _, h⟩ := h
    left; rw [h, printErrorResult_eq _ _ _ (append_ne_empty _ _ (by decide))]
    exact ⟨rfl, member_errorObject_signed _ _⟩
  · obtain ⟨key, sgn, arg, rawTx, tx, e, _, _, _, _, h⟩ := h
    left; rw [h, printErrorResult_eq _ _ _ (append_ne_empty _ _ (by decide))]
    exact ⟨rfl, member_errorObject_signed _ _⟩
  · obtain ⟨key, sgn, arg, rawTx, tx, stx, e, _, _, _, _, _, h⟩ := h
    left; rw [h, printErrorResult_eq _ _ _ (append_ne_empty _ _ (by decide))]
    exact ⟨rfl, member_errorObject_signed _ _⟩
  · right; exact h

theorem printResult_code (f : Flags) (ran : List Stage) (b : List Nat) :
    (printResult f ran b).code = 0 := by
  rw [printResult_eq]

theorem printErrorResult_code (f : Flags) (ran : List Stage) (msg : String) :
    (printErrorResult f ran msg).code = 1 := by
  simp [printErrorResult, MarshalIndent]

/-! ### Failures before and inside the pipeline -/

theorem StageFailure.msg_ne {K T S : Type} {L : GoEthereum K T S} {key : K} {sgn : S} {arg : String}
    {ran : List Stage} {msg : String} (h : StageFailure L key sgn arg ran msg) : msg ≠ "" := by
  rcases h with ⟨e, _, _, rfl⟩ | ⟨_, e, _, _, _, rfl⟩ | ⟨_, _, e, _, _, _, _, rfl⟩ |
    ⟨_, _, _, e, _, _, _, _, _, rfl⟩ <;> exact append_ne_empty _ _ (by decide)

theorem main_of_stageFailure {K T S : Type} (L : GoEthereum K T S) (f : Flags) (key : K) (sgn : S)
    (arg : String) (ran : List Stage) (msg : String) (hv : Validated L f key sgn arg)
    (h : StageFailure L key sgn arg ran msg) :
    main L f = ⟨.stdoutJson [("error", .str msg), ("signer", .str f.signer),
      ("chain_id", .num f.chainId)], 1, ran⟩ := by
  have hne := h.msg_ne
  rw [main_of_validated L f key sgn arg hv]
  rcases h with ⟨e, h7, rfl, rfl⟩ | ⟨rawTx, e, h7, h8, rfl, rfl⟩ | ⟨rawTx, tx, e, h7, h8, h9, rfl, rfl⟩ |
    ⟨rawTx, tx, stx, e, h7, h8, h9, h10, rfl, rfl⟩
  · rw [h7]
    exact printErrorResult_eq _ _ _ hne
  · rw [h7]
    simp only [h8]
    exact printErrorResult_eq _ _ _ hne
  · rw [h7]
    simp only [h8, h9]
    exact printErrorResult_eq _ _ _ hne
  · rw [h7]
    simp only [h8, h9, h10]
    exact printErrorResult_eq _ _ _ hne

theorem main_usage_of_args {K T S : Type} (L : GoEthereum K T S) (f : Flags) (h : f.args = []) :
    main L f = showUsage := by
  simp [main, h]

theorem main_usage_of_key {K T S : Type} (L : GoEthereum K T S) (f : Flags) (h : f.privateKey = "") :
    main L f = showUsage := by
  by_cases h1 : f.args = []
  · exact main_usage_of_args L f h1
  · have h1len : f.args.length ≠ 0 := by simpa using h1
    simp [main, h1len, h]

theorem main_usage_of_chain {K T S : Type} (L : GoEthereum K T S) (f : Flags) (key : K)
    (hk : L.HexToECDSA f.privateKey = .ok key) (h : f.chainId = 0) : main L f = showUsage := by
  by_cases h1 : f.args = []
  · exact main_usage_of_args L f h1
  by_cases h2 : f.privateKey = ""
  · exact main_usage_of_key L f h2
  have h1len : f.args.length ≠ 0 := by simpa using h1
  simp [main, h1len, h2, hk, h]

theorem main_usage_of_signer {K T S : Type} (L : GoEthereum K T S) (f : Flags) (key : K)
    (hk : L.HexToECDSA f.privateKey = .ok key) (hl : f.signer ≠ "london") (hg : f.signer ≠ "legacy") :
    main L f = showUsage := by
  by_cases h1 : f.args = []
  · exact main_usage_of_args L f h1
  by_cases h2 : f.privateKey = ""
  · exact main_usage_of_key L f h2
  by_cases h4 : f.chainId = 0
  · exact main_usage_of_chain L f key hk h4
  have h1len : f.args.length ≠ 0 := by simpa using h1
  have h5 := (txSignerOf_eq_none L f.signer f.chainId).mpr ⟨hl, hg⟩
  simp [main, h1len, h2, hk, h4, h5]

theorem main_fatal_of_key {K T S : Type} (L : GoEthereum K T S) (f : Flags) (e : String)
    (h1 : f.args ≠ []) (h2 : f.privateKey ≠ "") (hk : L.HexToECDSA f.privateKey = .error e) :
    main L f = logFatalf ("failed to read private key: " ++ e) := by
  have h1len : f.args.length ≠ 0 := by simpa using h1
  simp [main, h1len, h2, hk]

/-- Every failing run is one of the failures before the pipeline or a stage failure. -/
theorem failure_cases {K T S : Type} (L : GoEthereum K T S) (f : Flags)
    (hfail : (main L f).code = 1) :
    f.args = [] ∨ f.privateKey = "" ∨ (∃ e, L.HexToECDSA f.privateKey = .error e) ∨
    (∃ key, L.HexToECDSA f.privateKey = .ok key ∧
      (f.chainId = 0 ∨ (f.signer ≠ "london" ∧ f.signer ≠ "legacy"))) ∨
    (∃ key sgn arg ran msg, Validated L f key sgn arg ∧ StageFailure L key sgn arg ran msg) := by
  rcases main_cases L f with h | h | h | h | h | h | h | h | h | h
  · exact Or.inl h.1
  · exact Or.inr (Or.inl h.2.1)
  · obtain ⟨e, _, _, he, _⟩ := h
    exact Or.inr (Or.inr (Or.inl ⟨e, he⟩))
  · obtain ⟨key, _, _, hk, h0, _⟩ := h
    exact Or.inr (Or.inr (Or.inr (Or.inl ⟨key, hk, Or.inl h0⟩)))
  · obtain ⟨key, _, _, hk, _, hn, _⟩ := h
    exact Or.inr (Or.inr (Or.inr (Or.inl ⟨key, hk, Or.inr ((txSignerOf_eq_none L _ _).mp hn)⟩)))
  · obtain ⟨key, sgn, arg, e, hv, h7, _⟩ := h
    exact Or.inr (Or.inr (Or.inr (Or.inr ⟨key, sgn, arg, _, _, hv, Or.inl ⟨e, h7, rfl, rfl⟩⟩)))
  · obtain ⟨key, sgn, arg, rawTx, e, hv, h7, h8, _⟩ := h
    exact Or.inr (Or.inr (Or.inr (Or.inr ⟨key, sgn, arg, _, _, hv,
      Or.inr (Or.inl ⟨rawTx, e, h7, h8, rfl, rfl⟩)⟩)))
  · obtain ⟨key, sgn, arg, rawTx, tx, e, hv, h7, h8, h9, _⟩ := h
    exact Or.inr (Or.inr (Or.inr (Or.inr ⟨key, sgn, arg, _, _, hv,
      Or.inr (Or.inr (Or.inl ⟨rawTx, tx, e, h7, h8, h9, rfl, rfl⟩))⟩)))
  · obtain ⟨key, sgn, arg, rawTx, tx, stx, e, hv, h7, h8, h9, h10, _⟩ := h
    exact Or.inr (Or.inr (Or.inr (Or.inr ⟨key, sgn, arg, _, _, hv,
      Or.inr (Or.inr (Or.inr ⟨rawTx, tx, stx, e, h7, h8, h9, h10, rfl, rfl⟩))⟩)))
  · obtain ⟨key, sgn, arg, signedTx, _, _, hm⟩ := h
    rw [hm, printResult_code] at hfail
    exact absurd hfail (by decide)

/-! ### What an encoding looks like, and `main` does not panic -/

theorem encodeHeader_head (off len : Nat) :
    ∃ x t, encodeHeader off len = x :: t ∧ off ≤ x := by
  unfold encodeHeader
  split_ifs
  · exact ⟨_, _, rfl, by omega⟩
  · exact ⟨_, _, rfl, by omega⟩

theorem wellFormed_head (b : List Nat) (h : WellFormed b) :
    ∃ x t, b = x :: t ∧ (192 ≤ x ∨ x = 2) := by
  obtain ⟨tx, htx⟩ := h
  unfold encode at htx
  split_ifs at htx
  cases tx with
  | Legacy t =>
    simp only [Except.ok.injEq] at htx
    obtain ⟨x, r, hx, hle⟩ := encodeHeader_head 192 (legacyFields t ++ signatureFields none).flatten.length
    refine ⟨x, r ++ (legacyFields t ++ signatureFields none).flatten, ?_, Or.inl hle⟩
    rw [← htx, encodeList, hx]
    rfl
  | Typed t =>
    simp only [Except.ok.injEq] at htx
    exact ⟨2, _, htx.symm, Or.inr rfl⟩

theorem main_no_panic {K T S : Type} (L : GoEthereum K T S) (f : Flags) :
    (main L f).printed ≠ .runtimePanic := by
  rcases main_code_cases L f with h | ⟨_, _, _, signedTx, _, _, h⟩
  · intro hp
    have := h.2
    rcases main_cases L f with h | h | h | h | h | h | h | h | h | h
    · rw [h.2] at hp; cases hp
    · rw [h.2.2] at hp; cases hp
    · obtain ⟨e, _, _, _, h⟩ := h
      rw [h] at hp; cases hp
    · obtain ⟨key, _, _, _, _, h⟩ := h
      rw [h] at hp; cases hp
    · obtain ⟨key, _, _, _, _, _, h⟩ := h
      rw [h] at hp; cases hp
    · obtain ⟨key, sgn, arg, e, _, _, h⟩ := h
      rw [h, printErrorResult_eq _ _ _ (append_ne_empty _ _ (by decide))] at hp; cases hp
    · obtain ⟨key, sgn, arg, rawTx, e, _, _, _, h⟩ := h
      rw [h, printErrorResult_eq _ _ _ (append_ne_empty _ _ (by decide))] at hp; cases hp
    · obtain ⟨key, sgn, arg, rawTx, tx, e, _, _, _, _, h⟩ := h
      rw [h, printErrorResult_eq _ _ _ (append_ne_empty _ _ (by decide))] at hp; cases hp
    · obtain ⟨key, sgn, arg, rawTx, tx, stx, e, _, _, _, _, _, h⟩ := h
      rw [h, printErrorResult_eq _ _ _ (append_ne_empty _ _ (by decide))] at hp; cases hp
    · obtain ⟨key, sgn, arg, signedTx, _, _, h⟩ := h
      rw [h, printResult_eq] at hp; cases hp
  · rw [h, printResult_eq]
    intro hp
    cases hp

theorem encodeHeader_ne_nil (off len : Nat) : 1 ≤ (encodeHeader off len).length := by
  obtain ⟨x, t, h, _⟩ := encodeHeader_head off len
  rw [h]
  simp

theorem encodeStr_ne_nil (b : List Nat) : 1 ≤ (encodeStr b).length := by
  unfold encodeStr
  split
  · split_ifs <;> simp
  · have := encodeHeader_ne_nil 128 b.length
    simp only [List.length_append]
    omega

theorem wellFormed_length (b : List Nat) (h : WellFormed b) : 2 ≤ b.length := by
  obtain ⟨tx, htx⟩ := h
  unfold encode at htx
  split_ifs at htx
  cases tx with
  | Legacy t =>
    simp only [Except.ok.injEq] at htx
    rw [← htx]
    have h1 := encodeHeader_ne_nil 192 (legacyFields t ++ signatureFields none).flatten.length
    have h2 := encodeStr_ne_nil (toBE t.nonce)
    simp only [encodeList, legacyFields, signatureFields, List.append_nil, List.flatten_cons,
      List.length_append, encodeUint] at h1 ⊢
    omega
  | Typed t =>
    simp only [Except.ok.injEq] at htx
    rw [← htx]
    have h1 := encodeHeader_ne_nil 192
      (encodeUint t.chainId :: typedFieldsAfterChainId t ++ signatureFields none).flatten.length
    simp only [encodeList, List.length_cons, List.length_append] at h1 ⊢
    omega

theorem not_wellFormed_single (x : Nat) : ¬ WellFormed [x] := by
  intro h
  have := wellFormed_length _ h
  simp at this

theorem not_wellFormed_unknown_type : ¬ WellFormed [127, 192] := by
  intro h
  obtain ⟨x, t, hx, hc⟩ := wellFormed_head _ h
  simp only [List.cons.injEq] at hx
  omega

/-! ### The claims -/

/-- C6: the exit status is 0 or 1 on every run; it is 0 exactly when every
check passed, all four stages succeeded and the run ended in `printResult` on
the bytes `MarshalBinary` returned, which prints them as the `signed_tx` member
(present whenever the bytes are not empty); a run with status 1 prints no
`signed_tx`.  Each failure path ends with status 1: no positional argument, an
empty `--privatekey`, a private key `HexToECDSA` rejects, `--chainid` 0, a
`--signer` other than `london` and `legacy`, and a failing hex decode,
`UnmarshalBinary`, `SignTx` or `MarshalBinary`.  This holds for every
implementation of the library calls. -/
theorem exit_status_zero_iff_signed_tx {K T S : Type} (L : GoEthereum K T S) (f : Flags) :
    ((main L f).code = 0 ∨ (main L f).code = 1) ∧
    ((main L f).code = 0 ↔
      ∃ key sgn arg signedTx, Validated L f key sgn arg ∧ PipelineOk L key sgn arg signedTx ∧
        main L f = printResult f allStages signedTx) ∧
    (∀ signedTx, main L f = printResult f allStages signedTx → signedTx ≠ [] →
      (main L f).printed.member "signed_tx" = some (.str (EncodeToString signedTx))) ∧
    ((main L f).code = 1 → (main L f).printed.member "signed_tx" = none) ∧
    (f.args = [] → (main L f).code = 1) ∧
    (f.privateKey = "" → (main L f).code = 1) ∧
    (∀ e, L.HexToECDSA f.privateKey = .error e → (main L f).code = 1) ∧
    (f.chainId = 0 → (main L f).code = 1) ∧
    (f.signer ≠ "london" → f.signer ≠ "legacy" → (main L f).code = 1) ∧
    (∀ key sgn arg, Validated L f key sgn arg →
      (∀ e, DecodeString arg = .error e → (main L f).code = 1) ∧
      (∀ rawTx e, DecodeString arg = .ok rawTx → L.UnmarshalBinary rawTx = .error e →
        (main L f).code = 1) ∧
      (∀ rawTx tx e, DecodeString arg = .ok rawTx → L.UnmarshalBinary rawTx = .ok tx →
        L.SignTx tx sgn key = .error e → (main L f).code = 1) ∧
      (∀ rawTx tx stx e, DecodeString arg = .ok rawTx → L.UnmarshalBinary rawTx = .ok tx →
        L.SignTx tx sgn key = .ok stx → L.MarshalBinary stx = .error e → (main L f).code = 1)) := by
  have hcases := main_code_cases L f
  have hfail : ∀ (P : Prop), (P → ¬ ∃ key sgn arg signedTx, Validated L f key sgn arg ∧
      PipelineOk L key sgn arg signedTx ∧ main L f = printResult f allStages signedTx) →
      P → (main L f).code = 1 := by
    intro P hP hp
    rcases hcases with h | h
    · exact h.1
    · exact absurd h (hP hp)
  refine ⟨?_, ?_, ?_, ?_, ?_, ?_, ?_, ?_, ?_, ?_⟩
  · rcases hcases with h | ⟨_, _, _, signedTx, _, _, h⟩
    · exact Or.inr h.1
    · exact Or.inl (by rw [h, printResult_code])
  · constructor
    · intro h0
      rcases hcases with h | h
      · rw [h.1] at h0
        exact absurd h0 (by decide)
      · exact h
    · rintro ⟨_, _, _, signedTx, _, _, h⟩
      rw [h, printResult_code]
  · intro signedTx h hne
    rw [h, printResult_eq]
    simp [Printed.member, List.find?, hne]
  · intro h1
    rcases hcases with h | ⟨_, _, _, signedTx, _, _, h⟩
    · exact h.2
    · rw [h, printResult_code] at h1
      exact absurd h1 (by decide)
  · exact hfail _ (fun h ⟨_, _, _, _, hv, _⟩ => hv.1 h)
  · exact hfail _ (fun h ⟨_, _, _, _, hv, _⟩ => hv.2.1 h)
  · intro e he
    exact hfail _ (fun (h : L.HexToECDSA f.privateKey = .error e) ⟨_, _, _, _, hv, _⟩ => by
      rw [hv.2.2.1] at h
      cases h) he
  · exact hfail _ (fun h ⟨_, _, _, _, hv, _⟩ => hv.2.2.2.1 h)
  · intro h1 h2
    have hn := (txSignerOf_eq_none L f.signer f.chainId).mpr ⟨h1, h2⟩
    exact hfail _ (fun (h : txSignerOf L f.signer f.chainId = none) ⟨_, _, _, _, hv, _⟩ => by
      rw [hv.2.2.2.2.1] at h
      cases h) hn
  · intro key sgn arg hv
    have hm := main_of_validated L f key sgn arg hv
    refine ⟨?_, ?_, ?_, ?_⟩
    · intro e h7
      rw [hm, h7]
      exact printErrorResult_code _ _ _
    · intro rawTx e h7 h8
      rw [hm, h7]
      simp only [h8]
      exact printErrorResult_code _ _ _
    · intro rawTx tx e h7 h8 h9
      rw [hm, h7]
      simp only [h8, h9]
      exact printErrorResult_code _ _ _
    · intro rawTx tx stx e h7 h8 h9 h10
      rw [hm, h7]
      simp only [h8, h9, h10]
      exact printErrorResult_code _ _ _

/-- C10: the pipeline hex decode, decode, sign, encode stops at the first
failing stage.  Once the checks before the pipeline have passed: the first
failing stage is the last one called (`ran`), the object printed holds that
stage's message (`failed to hex decode unsigned tx`, `failed to decode unsigned
tx`, `failed to sign transaction`, `failed to encoded signed transaction`,
each followed by the stage's error text) with the signer and chain id and no
`signed_tx`, and the status is 1; when all four succeed the object holds the
signer, the chain id and `signed_tx`, the hex encoding of all the bytes
`MarshalBinary` returned, and no `error`.  On every run, a `signed_tx` member
is printed only after all four stages succeeded.  This holds for every
implementation of the library calls. -/
theorem pipeline_short_circuits {K T S : Type} (L : GoEthereum K T S) (f : Flags) :
    (∀ key sgn arg, Validated L f key sgn arg →
      (∀ e, DecodeString arg = .error e →
        main L f = ⟨.stdoutJson [("error", .str ("failed to hex decode unsigned tx: " ++ e.Error)),
          ("signer", .str f.signer), ("chain_id", .num f.chainId)], 1, [.hexDecode]⟩) ∧
      (∀ rawTx e, DecodeString arg = .ok rawTx → L.UnmarshalBinary rawTx = .error e →
        main L f = ⟨.stdoutJson [("error", .str ("failed to decode unsigned tx: " ++ e)),
          ("signer", .str f.signer), ("chain_id", .num f.chainId)], 1, [.hexDecode, .decode]⟩) ∧
      (∀ rawTx tx e, DecodeString arg = .ok rawTx → L.UnmarshalBinary rawTx = .ok tx →
        L.SignTx tx sgn key = .error e →
        main L f = ⟨.stdoutJson [("error", .str ("failed to sign transaction: " ++ e)),
          ("signer", .str f.signer), ("chain_id", .num f.chainId)], 1, [.hexDecode, .decode, .sign]⟩) ∧
      (∀ rawTx tx stx e, DecodeString arg = .ok rawTx → L.UnmarshalBinary rawTx = .ok tx →
        L.SignTx tx sgn key = .ok stx → L.MarshalBinary stx = .error e →
        main L f = ⟨.stdoutJson [("error", .str ("failed to encoded signed transaction: " ++ e)),
          ("signer", .str f.signer), ("chain_id", .num f.chainId)], 1,
          [.hexDecode, .decode, .sign, .encode]⟩) ∧
      (∀ rawTx tx stx signedTx, DecodeString arg = .ok rawTx → L.UnmarshalBinary rawTx = .ok tx →
        L.SignTx tx sgn key = .ok stx → L.MarshalBinary stx = .ok signedTx → signedTx ≠ [] →
        main L f = ⟨.stdoutJson [("signer", .str f.signer), ("chain_id", .num f.chainId),
          ("signed_tx", .str (EncodeToString signedTx))], 0, [.hexDecode, .decode, .sign, .encode]⟩)) ∧
    (∀ v, (main L f).printed.member "signed_tx" = some v →
      ∃ key sgn arg signedTx, Validated L f key sgn arg ∧ PipelineOk L key sgn arg signedTx ∧
        v = .str (EncodeToString signedTx) ∧ (main L f).printed.member "error" = none) := by
  refine ⟨?_, ?_⟩
  · intro key sgn arg hv
    have hm := main_of_validated L f key sgn arg hv
    refine ⟨?_, ?_, ?_, ?_, ?_⟩
    · intro e h7
      rw [hm, h7]
      exact printErrorResult_eq _ _ _ (append_ne_empty _ _ (by decide))
    · intro rawTx e h7 h8
      rw [hm, h7]
      simp only [h8]
      exact printErrorResult_eq _ _ _ (append_ne_empty _ _ (by decide))
    · intro rawTx tx e h7 h8 h9
      rw [hm, h7]
      simp only [h8, h9]
      exact printErrorResult_eq _ _ _ (append_ne_empty _ _ (by decide))
    · intro rawTx tx stx e h7 h8 h9 h10
      rw [hm, h7]
      simp only [h8, h9, h10]
      exact printErrorResult_eq _ _ _ (append_ne_empty _ _ (by decide))
    · intro rawTx tx stx signedTx h7 h8 h9 h10 hne
      rw [hm, h7]
      simp only [h8, h9, h10]
      rw [printResult_eq]
      simp [hne, allStages]
  · intro v hv
    rcases main_code_cases L f with h | ⟨key, sgn, arg, signedTx, hval, hok, h⟩
    · rw [h.2] at hv
      cases hv
    · refine ⟨key, sgn, arg, signedTx, hval, hok, ?_⟩
      rw [h, printResult_eq] at hv ⊢
      by_cases hne : signedTx = []
      · simp [Printed.member, List.find?, hne] at hv
      · simp only [Printed.member, List.find?, hne, if_false, List.cons_append, List.nil_append] at hv ⊢
        simp at hv ⊢
        exact hv.symm

/-- C7, amended: every failing run exits with status 1, and it prints the
structured result exactly when the failure is in one of the four pipeline
stages.  With no positional argument, or with an empty private key, `main`
prints the usage text; otherwise a private key that does not parse is reported
by `log.Fatalf` on standard error; when the key parses, a zero chain id or a
signer name other than `london` and `legacy` prints the usage text; none of
these calls a stage.  Once those checks pass, a failing stage prints the
object holding a non-empty `error` (the stage's message), the `signer` flag and
the `chain_id` flag, after the stages up to the failing one.  A failing run is
always one of these, and a JSON object on a failing run always comes from a
stage failure.  This holds for every implementation of the library calls. -/
theorem failure_output {K T S : Type} (L : GoEthereum K T S) (f : Flags) :
    (f.args = [] → main L f = ⟨.stdoutText usageString, 1, []⟩) ∧
    (f.privateKey = "" → main L f = ⟨.stdoutText usageString, 1, []⟩) ∧
    (∀ e, f.args ≠ [] → f.privateKey ≠ "" → L.HexToECDSA f.privateKey = .error e →
      main L f = ⟨.stderrLog ("failed to read private key: " ++ e), 1, []⟩) ∧
    (∀ key, L.HexToECDSA f.privateKey = .ok key → f.chainId = 0 →
      main L f = ⟨.stdoutText usageString, 1, []⟩) ∧
    (∀ key, L.HexToECDSA f.privateKey = .ok key → f.signer ≠ "london" → f.signer ≠ "legacy" →
      main L f = ⟨.stdoutText usageString, 1, []⟩) ∧
    (∀ key sgn arg ran msg, Validated L f key sgn arg → StageFailure L key sgn arg ran msg →
      msg ≠ "" ∧ main L f = ⟨.stdoutJson [("error", .str msg), ("signer", .str f.signer),
        ("chain_id", .num f.chainId)], 1, ran⟩) ∧
    ((main L f).code = 1 →
      f.args = [] ∨ f.privateKey = "" ∨ (∃ e, L.HexToECDSA f.privateKey = .error e) ∨
      (∃ key, L.HexToECDSA f.privateKey = .ok key ∧
        (f.chainId = 0 ∨ (f.signer ≠ "london" ∧ f.signer ≠ "legacy"))) ∨
      (∃ key sgn arg ran msg, Validated L f key sgn arg ∧ StageFailure L key sgn arg ran msg)) ∧
    (∀ members, (main L f).code = 1 → (main L f).printed = .stdoutJson members →
      ∃ key sgn arg ran msg, Validated L f key sgn arg ∧ StageFailure L key sgn arg ran msg ∧
        members = [("error", .str msg), ("signer", .str f.signer), ("chain_id", .num f.chainId)]) := by
  refine ⟨main_usage_of_args L f, main_usage_of_key L f, ?_, main_usage_of_chain L f,
    main_usage_of_signer L f, ?_, failure_cases L f, ?_⟩
  · intro e h1 h2 hk
    exact main_fatal_of_key L f e h1 h2 hk
  · intro key sgn arg ran msg hv hs
    exact ⟨hs.msg_ne, main_of_stageFailure L f key sgn arg ran msg hv hs⟩
  · intro members hcode hjson
    have husage : main L f = showUsage → False := by
      intro h
      rw [h] at hjson
      cases hjson
    rcases failure_cases L f hcode with h | h | ⟨e, he⟩ | ⟨key, hk, h | h⟩ | ⟨key, sgn, arg, ran, msg, hv, hs⟩
    · exact absurd (main_usage_of_args L f h) husage
    · exact absurd (main_usage_of_key L f h) husage
    · by_cases h1 : f.args = []
      · exact absurd (main_usage_of_args L f h1) husage
      by_cases h2 : f.privateKey = ""
      · exact absurd (main_usage_of_key L f h2) husage
      rw [main_fatal_of_key L f e h1 h2 he] at hjson
      cases hjson
    · exact absurd (main_usage_of_chain L f key hk h) husage
    · exact absurd (main_usage_of_signer L f key hk h.1 h.2) husage
    · refine ⟨key, sgn, arg, ran, msg, hv, hs, ?_⟩
      rw [main_of_stageFailure L f key sgn arg ran msg hv hs] at hjson
      simp only [Printed.stdoutJson.injEq] at hjson
      exact hjson.symm

/-- A run with a key that parses, chain id 1, signer `london` and the argument
`ff` (the byte `0xFF`): the checks pass, the decode stage fails, and the
structured result is printed with status 1 after two stages. -/
theorem failure_output_witness :
    Validated (core fixedPrimitives) ⟨1, keyOne, "london", ["ff"]⟩ 1 (.ok ⟨1, .Typed⟩) "ff" ∧
    StageFailure (core fixedPrimitives) 1 (.ok ⟨1, .Typed⟩) "ff" [.hexDecode, .decode]
      "failed to decode unsigned tx: MalformedEncoding" ∧
    main (core fixedPrimitives) ⟨1, keyOne, "london", ["ff"]⟩ =
      ⟨.stdoutJson [("error", .str "failed to decode unsigned tx: MalformedEncoding"),
        ("signer", .str "london"), ("chain_id", .num 1)], 1, [.hexDecode, .decode]⟩ :=
  have hv : Validated (core fixedPrimitives) ⟨1, keyOne, "london", ["ff"]⟩ 1 (.ok ⟨1, .Typed⟩) "ff" :=
    ⟨by decide, by decide, rfl, by decide, rfl, rfl⟩
  have hs : StageFailure (core fixedPrimitives) 1 (.ok ⟨1, .Typed⟩) "ff" [.hexDecode, .decode]
      "failed to decode unsigned tx: MalformedEncoding" :=
    Or.inr (Or.inl ⟨[255], "MalformedEncoding", rfl, rfl, rfl, rfl⟩)
  ⟨hv, hs, ((failure_output (core fixedPrimitives) ⟨1, keyOne, "london", ["ff"]⟩).2.2.2.2.2.1
    1 (.ok ⟨1, .Typed⟩) "ff" [.hexDecode, .decode] _ hv hs).2⟩

/-- C7 fails as stated: run with private key `01`, chain id 1, signer `legacy`
and no positional argument, `main` reaches `showUsage` at its first check,
before any library call: the status is 1 and what is printed is the usage
text, which is no JSON object and names neither the signer nor the chain id. -/
theorem usage_failure_has_no_result :
    (main (core fixedPrimitives) ⟨1, "01", "legacy", []⟩).code = 1 ∧
    (main (core fixedPrimitives) ⟨1, "01", "legacy", []⟩).printed = .stdoutText usageString ∧
    (main (core fixedPrimitives) ⟨1, "01", "legacy", []⟩).printed.member "error" = none ∧
    (main (core fixedPrimitives) ⟨1, "01", "legacy", []⟩).printed.member "signer" = none ∧
    (main (core fixedPrimitives) ⟨1, "01", "legacy", []⟩).printed.member "chain_id" = none :=
  ⟨rfl, rfl, rfl, rfl, rfl⟩

theorem newSigner_pos (scheme : SignerScheme) (C : Nat) (hC : 1 ≤ C) :
    newSigner scheme (C : Int) = .ok ⟨C, scheme⟩ := by
  have : ¬ ((C : Int) ≤ 0) := by omega
  simp [newSigner, this]

/-- C1: run with `--signer legacy`, a chain id `C ≥ 1` and a private key that
parses, on an argument that decodes to a Legacy transaction, where the ECDSA
primitive returns `(r, s, recoveryId)` for the hash of the field list extended
with `[C, 0, 0]`: the run exits with status 0 after all four stages and prints
as `signed_tx` the hex encoding of the field list extended with
`[recoveryId + 35 + 2 * C, r, s]`, the `r` and `s` being those the primitive
returned. -/
theorem legacy_signature_v {Key : Type} (P : Primitives Key) (f : Flags) (key : Key) (arg : String)
    (rawTx : List Nat) (tx : LegacyTx) (C r s recoveryId : Nat)
    (hargs : f.args[f.args.length - 1]? = some arg)
    (hpk : f.privateKey ≠ "") (hkey : P.HexToECDSA f.privateKey = .ok key)
    (hC : 1 ≤ C) (hchain : f.chainId = (C : Int)) (hsigner : f.signer = "legacy")
    (hhex : DecodeString arg = .ok rawTx) (hdec : decode rawTx = .ok (.Legacy tx))
    (hsig : P.sign key (P.hash (encodeList (legacyFields tx ++
      [encodeUint C, encodeUint 0, encodeUint 0]))) = .ok (r, s, recoveryId))
    (hr : r ≠ 0) (hs : s ≠ 0) (hr256 : r < 2 ^ 256) (hs256 : s < 2 ^ 256) :
    main (core P) f = ⟨.stdoutJson [("signer", .str "legacy"), ("chain_id", .num (C : Int)),
      ("signed_tx", .str (EncodeToString (encodeList (legacyFields tx ++
        [encodeUint (recoveryId + 35 + 2 * C), encodeUint r, encodeUint s]))))], 0,
      [.hexDecode, .decode, .sign, .encode]⟩ := by
  have hne : f.args ≠ [] := by
    intro h
    rw [h] at hargs
    simp at hargs
  have hc0 : f.chainId ≠ 0 := by
    rw [hchain]
    omega
  have hsgn : txSignerOf (core P) f.signer f.chainId = some (.ok ⟨C, .Legacy⟩) := by
    rw [hsigner, hchain]
    simp [txSignerOf, core, newSigner_pos _ _ hC]
  have hv : Validated (core P) f key (.ok ⟨C, .Legacy⟩) arg := ⟨hne, hpk, hkey, hc0, hsgn, hargs⟩
  obtain ⟨_, hvalid⟩ := decode_sound _ _ hdec (DecodeString_isBytes _ _ hhex)
  have hvalid2 : tx.valid = true := hvalid
  have hmul : recoveryId + 35 + C * 2 = recoveryId + 35 + 2 * C := by omega
  have henc : encodeList (legacyFields tx ++ [encodeUint (recoveryId + 35 + 2 * C), encodeUint r, encodeUint s]) ≠ [] := by
    simp [encodeList, encodeHeader]
    split_ifs <;> simp
  rw [main_of_validated _ f key _ arg hv, hhex]
  simp only [core, hdec, signTransaction, schemeMatches, derive, hsig, attach, hr, hs,
    or_self, if_false, beq_self_eq_true, if_true, encode, TransactionVariant.valid, hvalid2,
    signatureValid, hr256, hs256, decide_True, Bool.and_self, signatureFields, hmul]
  rw [printResult_eq]
  simp [henc, allStages, hsigner, hchain]

/-- C8, amended: malformed input is rejected, not partially decoded.  The
single byte `0xFF` fails to decode with `MalformedEncoding`.  Every byte
sequence that is not the encoding of a transaction fails to decode: with
`MalformedEncoding` when it is empty or its first byte is a list lead byte
(`0xc0` and above) or the discriminator `0x02`, and with `UnsupportedType` when
its first byte is anything else.  A run whose argument is such a sequence ends
after the decode stage with status 1 and prints the object with the decode
error, the signer and the chain id, and no `signed_tx`.  On every run `main`
itself raises no panic: its one index expression is in range. -/
theorem ill_formed_input_rejected :
    decode [255] = .error .MalformedEncoding ∧
    (∀ b : List Nat, isBytes b = true → ¬ WellFormed b →
      ((b = [] ∨ ∃ x t, b = x :: t ∧ (192 ≤ x ∨ x = 2)) → decode b = .error .MalformedEncoding) ∧
      ((∃ x t, b = x :: t ∧ x < 192 ∧ x ≠ 2) → decode b = .error .UnsupportedType)) ∧
    (∀ (Key : Type) (P : Primitives Key) (f : Flags) (key : Key) (sgn : Except CoreError ChainConfig)
      (arg : String) (rawTx : List Nat),
      Validated (core P) f key sgn arg → DecodeString arg = .ok rawTx → ¬ WellFormed rawTx →
      ∃ e, (e = .MalformedEncoding ∨ e = .UnsupportedType) ∧ decode rawTx = .error e ∧
        main (core P) f = ⟨.stdoutJson [("error", .str ("failed to decode unsigned tx: " ++ e.Error)),
          ("signer", .str f.signer), ("chain_id", .num f.chainId)], 1, [.hexDecode, .decode]⟩) ∧
    (∀ (K T S : Type) (L : GoEthereum K T S) (f : Flags), (main L f).printed ≠ .runtimePanic) := by
  have hrej : ∀ b : List Nat, isBytes b = true → ¬ WellFormed b → ∃ e, decode b = .error e := by
    intro b hb hwf
    cases hd : decode b with
    | error e => exact ⟨e, rfl⟩
    | ok tx => exact absurd ⟨tx, (decode_sound b tx hd hb).1⟩ hwf
  have hclass : ∀ b : List Nat, isBytes b = true → ¬ WellFormed b →
      ((b = [] ∨ ∃ x t, b = x :: t ∧ (192 ≤ x ∨ x = 2)) → decode b = .error .MalformedEncoding) ∧
      ((∃ x t, b = x :: t ∧ x < 192 ∧ x ≠ 2) → decode b = .error .UnsupportedType) := by
    intro b hb hwf
    obtain ⟨e, he⟩ := hrej b hb hwf
    constructor
    · rintro (rfl | ⟨h, t, rfl, hh⟩)
      · rfl
      · rw [he]
        unfold decode at he
        simp only at he
        have hh2 : h < 256 := ((isBytes_cons h t).mp hb).1
        rcases hh with hh | hh
        · rw [if_pos ⟨hh, hh2⟩] at he
          split at he
          · cases he
          · cases he
            rfl
        · have hn : ¬ (192 ≤ h ∧ h < 256) := by omega
          rw [if_neg hn, if_pos hh] at he
          split at he
          · cases he
          · cases he
            rfl
    · rintro ⟨x, t, rfl, hx, hx2⟩
      have hn : ¬ (192 ≤ x ∧ x < 256) := by omega
      simp [decode, hn, hx2]
  refine ⟨rfl, hclass, ?_, fun K T S L f => main_no_panic L f⟩
  intro Key P f key sgn arg rawTx hv hhex hwf
  have hb := DecodeString_isBytes _ _ hhex
  obtain ⟨e, he⟩ := hrej rawTx hb hwf
  have hcl : e = .MalformedEncoding ∨ e = .UnsupportedType := by
    obtain ⟨h1, h2⟩ := hclass rawTx hb hwf
    cases hr : rawTx with
    | nil =>
      have := h1 (Or.inl hr)
      rw [he] at this
      exact Or.inl (by injection this)
    | cons x t =>
      by_cases hx : 192 ≤ x ∨ x = 2
      · have := h1 (Or.inr ⟨x, t, hr, hx⟩)
        rw [he] at this
        exact Or.inl (by injection this)
      · have := h2 ⟨x, t, hr, by omega, by omega⟩
        rw [he] at this
        exact Or.inr (by injection this)
  refine ⟨e, hcl, he, ?_⟩
  rw [main_of_validated _ f key sgn arg hv, hhex]
  simp only [core, he]
  exact printErrorResult_eq _ _ _ (append_ne_empty _ _ (by decide))

/-- The byte `0xFF` alone: it is no encoding, it fails to decode with
`MalformedEncoding`, and the run on `ff` prints the decode error with status 1. -/
theorem ill_formed_input_rejected_witness :
    isBytes [255] = true ∧ ¬ WellFormed [255] ∧
    Validated (core fixedPrimitives) ⟨1, keyOne, "legacy", ["ff"]⟩ 1 (.ok ⟨1, .Legacy⟩) "ff" ∧
    decode [255] = .error .MalformedEncoding ∧
    ∃ e, (e = .MalformedEncoding ∨ e = .UnsupportedType) ∧ decode [255] = .error e ∧
      main (core fixedPrimitives) ⟨1, keyOne, "legacy", ["ff"]⟩ =
        ⟨.stdoutJson [("error", .str ("failed to decode unsigned tx: " ++ e.Error)),
          ("signer", .str "legacy"), ("chain_id", .num 1)], 1, [.hexDecode, .decode]⟩ :=
  have hv : Validated (core fixedPrimitives) ⟨1, keyOne, "legacy", ["ff"]⟩ 1 (.ok ⟨1, .Legacy⟩) "ff" :=
    ⟨by decide, by decide, rfl, by decide, rfl, rfl⟩
  ⟨rfl, not_wellFormed_single 255, hv,
    (ill_formed_input_rejected.2.1 [255] rfl (not_wellFormed_single 255)).1
      (Or.inr ⟨255, [], rfl, Or.inl (by decide)⟩),
    ill_formed_input_rejected.2.2.1 Nat fixedPrimitives ⟨1, keyOne, "legacy", ["ff"]⟩ 1
      (.ok ⟨1, .Legacy⟩) "ff" [255] hv rfl (not_wellFormed_single 255)⟩

/-- C8 fails as stated: the bytes `0x7F 0xC0` are not the encoding of a
transaction, and they fail to decode with `UnsupportedType`, not with
`MalformedEncoding`; the run on `7fc0` prints that error with status 1. -/
theorem unknown_type_is_not_malformed :
    isBytes [127, 192] = true ∧ ¬ WellFormed [127, 192] ∧
    decode [127, 192] = .error .UnsupportedType ∧
    decode [127, 192] ≠ .error .MalformedEncoding ∧
    main (core fixedPrimitives) ⟨1, keyOne, "london", ["7fc0"]⟩ =
      ⟨.stdoutJson [("error", .str "failed to decode unsigned tx: UnsupportedType"),
        ("signer", .str "london"), ("chain_id", .num 1)], 1, [.hexDecode, .decode]⟩ := by
  refine ⟨rfl, ?_, rfl, ?_, rfl⟩
  · exact not_wellFormed_unknown_type
  · intro h
    have h2 : decode [127, 192] = .error .UnsupportedType := rfl
    rw [h2] at h
    cases h

/-- The scenario of §8 under `--signer legacy` on chain id 1, with the
stand-in primitives: `v` is `0 + 35 + 2 * 1 = 37`, the byte `0x25`. -/
theorem legacy_signature_v_witness :
    decode scenarioRaw = .ok (.Legacy scenarioTx) ∧
    main (core fixedPrimitives) (scenarioFlags "legacy") =
      ⟨.stdoutJson [("signer", .str "legacy"), ("chain_id", .num 1),
        ("signed_tx", .str (EncodeToString (encodeList (legacyFields scenarioTx ++
          [encodeUint (0 + 35 + 2 * 1), encodeUint 1, encodeUint 1]))))], 0,
        [.hexDecode, .decode, .sign, .encode]⟩ :=
  ⟨rfl, legacy_signature_v fixedPrimitives (scenarioFlags "legacy") 1 scenarioHex scenarioRaw
    scenarioTx 1 1 1 0 rfl (by decide) rfl (by decide) rfl rfl rfl rfl rfl (by decide) (by decide)
    (by norm_num) (by norm_num)⟩

end EvmTxSigner
